import Mathlib

/-!
Verification of the Kapsis status library (`scripts/lib/status.py`).

The development shallowly embeds the library: counters become a structure of
natural numbers, the classifier and phase derivation become string functions,
the status publisher becomes a pure record constructor plus a small filesystem
model, and `calculate_progress` is embedded faithfully at the level of IEEE-754
double-precision arithmetic (doubles are modelled as exact dyadic rationals,
represented by numerator/denominator pairs of naturals so that everything
evaluates inside the kernel).
-/

namespace Kapsis

/-- The phase names accepted by `update` (`PHASES` in the source). -/
def PHASES : List String := ["exploring", "implementing", "building", "testing", "committing", "completing"]

/-- Default status directory (`DEFAULT_STATUS_DIR` in the source). -/
def DEFAULT_STATUS_DIR : String := "/kapsis-status"

/-- The per-category tool-usage counters (`self.tool_counts`). -/
structure ToolCounts where
  explore : ℕ
  implement : ℕ
  build : ℕ
  test : ℕ
  commit : ℕ
deriving DecidableEq, Repr

/-- Sum of all counters (`sum(self.tool_counts.values())`). -/
def ToolCounts.total (c : ToolCounts) : ℕ :=
  c.explore + c.implement + c.build + c.test + c.commit

/-- Counters with each count capped at 10, the only part of a count that
`calculate_progress` can observe. -/
def capCounts (c : ToolCounts) : ToolCounts :=
  ⟨min c.explore 10, min c.implement 10, min c.build 10, min c.test 10, min c.commit 10⟩

/-- `KapsisStatus._determine_phase`: most-advanced-first priority over the
counters. -/
def determine_phase (c : ToolCounts) : String :=
  if 0 < c.commit then "committing"
  else if 0 < c.test then "testing"
  else if 0 < c.build then "building"
  else if 0 < c.implement then "implementing"
  else "exploring"

/-! ### Tool classifier (`KapsisStatus._map_tool_to_category`) -/

/-- ASCII lowercasing, modelling Python's `str.lower()` on the ASCII tool
names and commands the library deals with. -/
def lowerStr (s : String) : String := ⟨s.data.map Char.toLower⟩

/-- Substring containment on character lists, modelling Python's `in` on
strings. -/
def hasSubstr (needle : List Char) : List Char → Bool
  | [] => needle.isEmpty
  | c :: rest => needle.isPrefixOf (c :: rest) || hasSubstr needle rest

/-- `tok in s` for strings. -/
def containsTok (tok : String) (s : String) : Bool := hasSubstr tok.data s.data

/-- `any(b in s for b in toks)`. -/
def containsAnyTok (toks : List String) (s : String) : Bool :=
  toks.any (fun tk => containsTok tk s)

/-- Tool names classified as exploration. -/
def exploreTools : List String := ["read", "grep", "glob", "search", "find"]

/-- Tool names classified as implementation. -/
def implementTools : List String := ["write", "edit", "notebookedit"]

/-- Build-command tokens, in source order. -/
def buildTokens : List String := ["mvn", "maven", "gradle", "npm", "yarn", "cargo", "make", "go build"]

/-- Test-command tokens, in source order. -/
def testTokens : List String := ["test", "pytest", "jest", "mocha", "rspec", "cargo test"]

/-- `KapsisStatus._map_tool_to_category`. -/
def map_tool_to_category (tool_name : String) (command : String) : String :=
  if lowerStr tool_name ∈ exploreTools then "explore"
  else if lowerStr tool_name ∈ implementTools then "implement"
  else if lowerStr tool_name = "bash" then
    (if containsAnyTok buildTokens (lowerStr command) then "build"
     else if containsAnyTok testTokens (lowerStr command) then "test"
     else if containsTok "git commit" (lowerStr command) then "commit"
     else "implement")
  else "implement"

/-- `KapsisStatus.record_tool`: bump the counter of the classified category. -/
def record_tool (c : ToolCounts) (tool_name : String) (command : String) : ToolCounts :=
  let cat := map_tool_to_category tool_name command
  if cat = "explore" then { c with explore := c.explore + 1 }
  else if cat = "implement" then { c with implement := c.implement + 1 }
  else if cat = "build" then { c with build := c.build + 1 }
  else if cat = "test" then { c with test := c.test + 1 }
  else if cat = "commit" then { c with commit := c.commit + 1 }
  else c

/-! ### Status records and the publisher (`_write_status`, `update`,
`complete`, `fail`)

The timestamp field is wall-clock time generated at write time and carries no
logic, so records are modelled without it. -/

/-- The data of a published status record (`status_data` in `_write_status`),
minus the write-time timestamp. -/
structure StatusRecord where
  phase : String
  progress : ℤ
  message : String
  project : String
  agent_id : String
  branch : String
  sandbox_mode : String
  exit_code : Option ℤ
deriving DecidableEq, Repr

/-- The identity fields an engine instance is constructed with. -/
structure EngineId where
  project : String
  agent_id : String
  branch : String
  sandbox_mode : String
  status_dir : String
deriving DecidableEq, Repr

/-- The record built by `KapsisStatus._write_status` before serialization:
progress is defensively clamped into [0,100] and `exit_code` is included
exactly when one was passed. -/
def write_status_record (id : EngineId) (phase : String) (progress : ℤ)
    (message : String) (exit_code : Option ℤ) : StatusRecord :=
  { phase := phase
    progress := max 0 (min 100 progress)
    message := message
    project := id.project
    agent_id := id.agent_id
    branch := id.branch
    sandbox_mode := id.sandbox_mode
    exit_code := exit_code }

/-- The record published by `KapsisStatus.update`: unknown phases fall back to
"implementing", progress is clamped into [25,90], and no exit code is passed. -/
def update_record (id : EngineId) (phase : String) (progress : ℤ)
    (message : String) : StatusRecord :=
  let phase' := if phase ∈ PHASES then phase else "implementing"
  write_status_record id phase' (max 25 (min 90 progress)) message none

/-- The record published by `KapsisStatus.complete`. -/
def complete_record (id : EngineId) (message : String) (exit_code : ℤ) : StatusRecord :=
  write_status_record id "completing" (if exit_code = 0 then 95 else 50) message (some exit_code)

/-- The record published by `KapsisStatus.fail` (`exit_code or 1` maps a
falsy 0 to 1). -/
def fail_record (id : EngineId) (message : String) (exit_code : ℤ) : StatusRecord :=
  write_status_record id "completing" 50 message (some (if exit_code = 0 then 1 else exit_code))

/-! ### Filesystem model for the atomic-write pattern (`_write_status`) -/

/-- A filesystem path split into directory and file name. -/
structure FsPath where
  dir : String
  name : String
deriving DecidableEq, Repr

/-- Stem of a file name: everything before the last dot, the whole name if
there is no dot (the name part of `pathlib.PurePath.stem`). -/
def stemOf (name : String) : String :=
  match (name.splitOn ".").reverse with
  | [] => name
  | [_] => name
  | _ :: restRev => String.intercalate "." restRev.reverse

/-- `pathlib.Path.with_suffix`: same directory, suffix replaced. -/
def withSuffix (p : FsPath) (suffix : String) : FsPath :=
  { dir := p.dir, name := stemOf p.name ++ suffix }

/-- `self.status_file = status_dir / f"kapsis-{project}-{agent_id}.json"`. -/
def statusFilePath (id : EngineId) : FsPath :=
  { dir := id.status_dir, name := "kapsis-" ++ id.project ++ "-" ++ id.agent_id ++ ".json" }

/-- `temp_file = self.status_file.with_suffix(".tmp")`. -/
def tempFilePath (id : EngineId) : FsPath :=
  withSuffix (statusFilePath id) ".tmp"

/-- Contents of the two paths the publisher touches, as seen by a reader. -/
structure FsView where
  finalContent : Option String
  tempContent : Option String
deriving DecidableEq, Repr

/-- Every state a concurrent reader can observe while one publish runs from
state `fs0`: the initial state, each partial prefix of the temp-file write
(the temp write itself need not be atomic), and the state after the atomic
rename of the temp file onto the final path. -/
def publishObservable (fs0 : FsView) (content : String) : List FsView :=
  fs0 ::
    ((List.range (content.length + 1)).map
      (fun k => { fs0 with tempContent := some (String.mk (content.data.take k)) }) ++
     [{ finalContent := some content, tempContent := none }])

/-- The state after a completed publish. -/
def publishFinal (content : String) : FsView :=
  { finalContent := some content, tempContent := none }

/-! ### Failure model (`_ensure_initialized` / `_write_status` exception
handling) -/

/-- Which filesystem operations succeed during one publish attempt. -/
structure FsEnv where
  mkdirOk : Bool
  writeOk : Bool
deriving DecidableEq, Repr

/-- `Path.mkdir(parents=True, exist_ok=True)` as a fallible primitive. -/
def mkdirE (env : FsEnv) : Except String Unit :=
  if env.mkdirOk then .ok () else .error "Cannot create status directory"

/-- `Path.write_text` / `Path.rename` as one fallible primitive. -/
def writeE (env : FsEnv) : Except String Unit :=
  if env.writeOk then .ok () else .error "Cannot write status file"

/-- `_ensure_initialized`: a mkdir failure is caught and only warned about. -/
def ensure_initialized (env : FsEnv) : Unit :=
  match mkdirE env with
  | .ok _ => ()
  | .error _ => ()   -- warning printed, no exception escapes

/-- `_write_status` run against a fallible filesystem: returns whether the
write succeeded and the record that was (or would have been) published.
Every failure of the primitives is caught and surfaces as `false`. -/
def write_status_run (env : FsEnv) (id : EngineId) (phase : String) (progress : ℤ)
    (message : String) (exit_code : Option ℤ) : Bool × Option StatusRecord :=
  let _ := ensure_initialized env
  match writeE env with
  | .ok _ => (true, some (write_status_record id phase progress message exit_code))
  | .error _ => (false, none)   -- warning printed, no exception escapes

/-- `update` run against a fallible filesystem. -/
def update_run (env : FsEnv) (id : EngineId) (phase : String) (progress : ℤ)
    (message : String) : Bool × Option StatusRecord :=
  let phase' := if phase ∈ PHASES then phase else "implementing"
  write_status_run env id phase' (max 25 (min 90 progress)) message none

/-- `complete` run against a fallible filesystem. -/
def complete_run (env : FsEnv) (id : EngineId) (message : String) (exit_code : ℤ) :
    Bool × Option StatusRecord :=
  write_status_run env id "completing" (if exit_code = 0 then 95 else 50) message (some exit_code)

/-- `fail` run against a fallible filesystem. -/
def fail_run (env : FsEnv) (id : EngineId) (message : String) (exit_code : ℤ) :
    Bool × Option StatusRecord :=
  write_status_run env id "completing" 50 message (some (if exit_code = 0 then 1 else exit_code))

/-! ### Constructor configuration resolution (`KapsisStatus.__init__`) -/

/-- The optional explicit constructor arguments. -/
structure CtorArgs where
  project : Option String
  agent_id : Option String
  branch : Option String
  sandbox_mode : Option String
  status_dir : Option String
deriving DecidableEq, Repr

/-- The environment variables the constructor falls back to. -/
structure EnvVars where
  project : Option String
  agent_id : Option String
  branch : Option String
  sandbox_mode : Option String
  status_dir : Option String
deriving DecidableEq, Repr

/-- Python's `arg or fallback` for an optional string argument: `None` and
the empty string are both falsy and select the fallback. -/
def pyOr (arg : Option String) (fallback : String) : String :=
  match arg with
  | some s => if s = "" then fallback else s
  | none => fallback

/-- `os.environ.get(key, default)`. -/
def envGet (v : Option String) (default : String) : String := v.getD default

/-- The identity resolved by `KapsisStatus.__init__`. -/
def mkEngineId (a : CtorArgs) (e : EnvVars) : EngineId :=
  { project := pyOr a.project (envGet e.project "unknown")
    agent_id := pyOr a.agent_id (envGet e.agent_id "0")
    branch := pyOr a.branch (envGet e.branch "")
    sandbox_mode := pyOr a.sandbox_mode (envGet e.sandbox_mode "overlay")
    status_dir := pyOr a.status_dir (envGet e.status_dir DEFAULT_STATUS_DIR) }

/-- A full engine instance: resolved identity plus mutable counters. -/
structure Engine where
  id : EngineId
  tool_counts : ToolCounts
deriving DecidableEq, Repr

/-- `KapsisStatus.__init__`: counters start at zero. -/
def mkEngine (a : CtorArgs) (e : EnvVars) : Engine :=
  { id := mkEngineId a e, tool_counts := ⟨0, 0, 0, 0, 0⟩ }

/-- `record_tool` at the engine level: only the counters change. -/
def engineRecordTool (g : Engine) (tool_name : String) (command : String) : Engine :=
  { g with tool_counts := record_tool g.tool_counts tool_name command }

/-! ### Message synthesis for `auto_update` -/

/-- `pathlib.Path(file_path).name` for the file paths tools report: the last
nonempty slash-separated component. -/
def baseName (p : String) : String :=
  ((p.splitOn "/").filter (fun s => s ≠ "")).getLastD ""

/-- The human message `auto_update` synthesizes. -/
def autoMessage (tool_name : String) (command : String) (file_path : String) : String :=
  if file_path ≠ "" then "Working on " ++ baseName file_path
  else if command ≠ "" then
    "Running: " ++ (if 50 < command.length then String.mk (command.data.take 50) ++ "..." else command)
  else "Using " ++ tool_name

/-! ### IEEE-754 double model for `calculate_progress`

The source computes progress with Python floats.  A finite double is an exact
dyadic rational, so doubles are modelled as unreduced nonnegative fractions
(`ℕ × ℕ` pairs, value `num/den`) and each arithmetic operation is followed by
`roundDy`, correct rounding to 53 significant bits with ties to even — the
IEEE-754 binary64 rounding of the true result.  All values arising in
`calculate_progress` are nonnegative and far from overflow and underflow, so
this models the Python float semantics exactly. -/

/-- An unreduced nonnegative fraction standing for a real intermediate value
or a double. -/
abbrev Dy := ℕ × ℕ

/-- The rational value of a fraction pair. -/
def dyVal (p : Dy) : ℚ := (p.1 : ℚ) / (p.2 : ℚ)

/-- Exact sum of fraction pairs. -/
def fadd (p q : Dy) : Dy := (p.1 * q.2 + q.1 * p.2, p.2 * q.2)

/-- Exact product of fraction pairs. -/
def fmul (p q : Dy) : Dy := (p.1 * q.1, p.2 * q.2)

/-- Exact quotient of fraction pairs. -/
def fdiv (p q : Dy) : Dy := (p.1 * q.2, p.2 * q.1)

/-- Binary normalization: scale `a/b` by powers of two (tracked in `e`) until
the mantissa `a/b` lies in `[1,2)`. -/
def normDy : ℕ → ℕ → ℕ → ℤ → ℕ × ℕ × ℤ
  | 0, a, b, e => (a, b, e)
  | fuel+1, a, b, e =>
    if a < b then normDy fuel (2*a) b (e-1)
    else if 2*b ≤ a then normDy fuel a (2*b) (e+1)
    else (a, b, e)

/-- Round a nonnegative fraction to the nearest binary64 value (53 significant
bits, ties to even). -/
def roundDy (p : Dy) : Dy :=
  if p.1 = 0 ∨ p.2 = 0 then (0, 1)
  else
    let t := normDy 600 p.1 p.2 0
    let sc := t.1 * 2^52
    let b := t.2.1
    let n := sc / b
    let r := sc % b
    let nr := if b < 2*r then n + 1 else if 2*r < b then n else (if n % 2 = 0 then n else n + 1)
    let k := t.2.2 - 52
    if 0 ≤ k then (nr * 2^k.toNat, 1) else (nr, 2^(-k).toNat)

/-- Double addition: round the exact sum. -/
def daddF (p q : Dy) : Dy := roundDy (fadd p q)

/-- Double multiplication: round the exact product. -/
def dmulF (p q : Dy) : Dy := roundDy (fmul p q)

/-- Double (true) division: round the exact quotient. -/
def ddivF (p q : Dy) : Dy := roundDy (fdiv p q)

/-- The double nearest the literal `0.15`. -/
def wExpF : Dy := roundDy (15, 100)

/-- The double nearest the literal `0.35`. -/
def wImpF : Dy := roundDy (35, 100)

/-- The double nearest the literal `0.20`. -/
def wBldF : Dy := roundDy (20, 100)

/-- The double nearest the literal `0.20`. -/
def wTstF : Dy := roundDy (20, 100)

/-- The double nearest the literal `0.10`. -/
def wCmtF : Dy := roundDy (10, 100)

/-- One category's contribution `weight * (effective_count / 10)` in doubles,
with `effective_count = min(count, 10)`. -/
def termF (w : Dy) (n : ℕ) : Dy := dmulF w (ddivF (min n 10, 1) (10, 1))

/-- One loop step of the `weighted_sum` accumulation (skipped when the count
is zero). -/
def stepWS (acc : Dy) (w : Dy) (n : ℕ) : Dy :=
  if 0 < n then daddF acc (termF w n) else acc

/-- One loop step of the `weighted_total` accumulation. -/
def stepWT (acc : Dy) (w : Dy) (n : ℕ) : Dy :=
  if 0 < n then daddF acc w else acc

/-- `weighted_sum` after the category loop, in source iteration order. -/
def wsF (c : ToolCounts) : Dy :=
  stepWS (stepWS (stepWS (stepWS (stepWS (0, 1) wExpF c.explore)
    wImpF c.implement) wBldF c.build) wTstF c.test) wCmtF c.commit

/-- `weighted_total` after the category loop, in source iteration order. -/
def wtF (c : ToolCounts) : Dy :=
  stepWT (stepWT (stepWT (stepWT (stepWT (0, 1) wExpF c.explore)
    wImpF c.implement) wBldF c.build) wTstF c.test) wCmtF c.commit

/-- `KapsisStatus.calculate_progress`, faithful to the double-precision
arithmetic of the source: `int(25 + (weighted_sum / weighted_total) * 65)`
evaluated in binary64, truncated (all values here are nonnegative, so
truncation is the floor). -/
def calculate_progress (c : ToolCounts) : ℕ :=
  if c.total = 0 then 25
  else
    let wt := wtF c
    if wt.1 = 0 then 25
    else
      let fin := daddF (25, 1) (dmulF (ddivF (wsF c) wt) (65, 1))
      fin.1 / fin.2

/-! ### The exact-arithmetic progress formula of the specification -/

/-- One category's contribution in the spec's exact formula:
`weight × min(count,10)/10` for a touched category, nothing otherwise. -/
def catContrib (w : ℚ) (n : ℕ) : ℚ :=
  if 0 < n then w * (((min n 10 : ℕ) : ℚ) / 10) else 0

/-- One category's weight in the spec's renormalization denominator. -/
def catWeight (w : ℚ) (n : ℕ) : ℚ := if 0 < n then w else 0

/-- `Σ contributions` over the categories with positive count, exact. -/
def weightedSum (c : ToolCounts) : ℚ :=
  catContrib 0.15 c.explore + catContrib 0.35 c.implement + catContrib 0.20 c.build +
    catContrib 0.20 c.test + catContrib 0.10 c.commit

/-- `Σ weights-of-nonzero-categories`, exact. -/
def weightedTotal (c : ToolCounts) : ℚ :=
  catWeight 0.15 c.explore + catWeight 0.35 c.implement + catWeight 0.20 c.build +
    catWeight 0.20 c.test + catWeight 0.10 c.commit

/-- Modelled from the spec's words: the integer floor of
`25 + 65 × (Σ contributions / Σ weights-of-nonzero-categories)` in exact
rational arithmetic (on the all-zero state both sums vanish and the convention
`0/0 = 0` makes this `25`, exactly the spec's floor value). -/
def progressFormula (c : ToolCounts) : ℤ :=
  ⌊(25 : ℚ) + 65 * (weightedSum c / weightedTotal c)⌋

/-! ### `auto_update` -/

/-- `KapsisStatus.auto_update` run against a fallible filesystem: record the
tool, derive phase and progress, synthesize the message, and publish through
`update`. -/
def auto_update_run (env : FsEnv) (g : Engine) (tool_name command file_path : String) :
    Engine × Bool × Option StatusRecord :=
  let g' := engineRecordTool g tool_name command
  (g', update_run env g'.id (determine_phase g'.tool_counts)
    (calculate_progress g'.tool_counts) (autoMessage tool_name command file_path))

/-! ### Relative-error bookkeeping for the double-precision analysis -/

/-- The per-operation relative error budget used in the analysis; the true
binary64 relative error bound is `2⁻⁵²`, so `2⁻⁵⁰` leaves slack for
composition. -/
def eps : ℚ := 1 / 2^50

/-- `p` holds a value within `n` accumulated error budgets of the exact
nonnegative quantity `a` (and `p` is a well-formed fraction). -/
def DyApprox (p : Dy) (a : ℚ) (n : ℕ) : Prop :=
  0 < p.2 ∧ a * (1 - n * eps) ≤ dyVal p ∧ dyVal p ≤ a * (1 + n * eps)

/-- Twenty times `weightedTotal`, as a natural number: the weights are
multiples of `1/20`. -/
def awInt (c : ToolCounts) : ℕ :=
  (if 0 < c.explore then 3 else 0) + (if 0 < c.implement then 7 else 0) +
    (if 0 < c.build then 4 else 0) + (if 0 < c.test then 4 else 0) +
    (if 0 < c.commit then 2 else 0)

/-- Two hundred times `weightedSum`, as a natural number. -/
def aeInt (c : ToolCounts) : ℕ :=
  (if 0 < c.explore then 3 * min c.explore 10 else 0) +
    (if 0 < c.implement then 7 * min c.implement 10 else 0) +
    (if 0 < c.build then 4 * min c.build 10 else 0) +
    (if 0 < c.test then 4 * min c.test 10 else 0) +
    (if 0 < c.commit then 2 * min c.commit 10 else 0)

/-! ## Theorems -/

/-- C2: the derived phase follows the fixed most-advanced-first priority
order — committing if the commit count is positive, else testing, else
building, else implementing, else exploring; in particular
{test:1, build:1, implement:1} derives `testing`. -/
theorem determine_phase_priority (c : ToolCounts) :
    (0 < c.commit → determine_phase c = "committing")
  ∧ (c.commit = 0 → 0 < c.test → determine_phase c = "testing")
  ∧ (c.commit = 0 → c.test = 0 → 0 < c.build → determine_phase c = "building")
  ∧ (c.commit = 0 → c.test = 0 → c.build = 0 → 0 < c.implement →
      determine_phase c = "implementing")
  ∧ (c.commit = 0 → c.test = 0 → c.build = 0 → c.implement = 0 →
      determine_phase c = "exploring")
  ∧ determine_phase ⟨0, 1, 1, 1, 0⟩ = "testing" := by
  refine ⟨?_, ?_, ?_, ?_, ?_, by decide⟩ <;> intros <;> simp_all [determine_phase]

/-- Witness for C2 at a concrete counter state. -/
theorem determine_phase_priority_witness :
    determine_phase ⟨5, 4, 3, 1, 0⟩ = "testing" :=
  (determine_phase_priority ⟨5, 4, 3, 1, 0⟩).2.1 rfl (by decide)

/-- C4: for every progress input, phase and message, the record published by
`update` has its progress equal to the input clamped into [25,90], hence
always within [25,90]. -/
theorem update_progress_clamped (id : EngineId) (phase : String) (p : ℤ) (msg : String) :
    (update_record id phase p msg).progress = max 25 (min 90 p)
  ∧ 25 ≤ (update_record id phase p msg).progress
  ∧ (update_record id phase p msg).progress ≤ 90 := by
  have h : (update_record id phase p msg).progress = max 0 (min 100 (max 25 (min 90 p))) := rfl
  refine ⟨?_, ?_, ?_⟩ <;> rw [h] <;> omega

/-- C5: every phase string outside the six known phases is replaced by
`implementing`, and the update still publishes the same record it would have
published for `implementing` (it is not rejected). -/
theorem update_unknown_phase (id : EngineId) (phase : String) (p : ℤ) (msg : String)
    (h : phase ∉ PHASES) :
    (update_record id phase p msg).phase = "implementing"
  ∧ update_record id phase p msg = update_record id "implementing" p msg
  ∧ ∀ env : FsEnv, update_run env id phase p msg = update_run env id "implementing" p msg := by
  have hpos : ("implementing" : String) ∈ PHASES := by decide
  refine ⟨?_, ?_, ?_⟩
  · show (write_status_record id (if phase ∈ PHASES then phase else "implementing")
        (max 25 (min 90 p)) msg none).phase = "implementing"
    rw [if_neg h]
    rfl
  · show write_status_record id (if phase ∈ PHASES then phase else "implementing")
        (max 25 (min 90 p)) msg none
      = write_status_record id
          (if ("implementing" : String) ∈ PHASES then "implementing" else "implementing")
          (max 25 (min 90 p)) msg none
    rw [if_neg h, if_pos hpos]
  · intro env
    show write_status_run env id (if phase ∈ PHASES then phase else "implementing")
        (max 25 (min 90 p)) msg none
      = write_status_run env id
          (if ("implementing" : String) ∈ PHASES then "implementing" else "implementing")
          (max 25 (min 90 p)) msg none
    rw [if_neg h, if_pos hpos]

/-- Witness for C5 at a concrete unknown phase string. -/
theorem update_unknown_phase_witness :
    (update_record ⟨"p", "0", "", "overlay", "/kapsis-status"⟩ "bogus" 50 "m").phase
      = "implementing" :=
  (update_unknown_phase ⟨"p", "0", "", "overlay", "/kapsis-status"⟩ "bogus" 50 "m"
    (by decide)).1

/-- C6: `complete` with exit code 0 publishes phase `completing`, progress 95
and exit code 0; with any nonzero exit code it publishes progress 50; `fail`
with its default arguments publishes phase `completing`, progress 50 and exit
code 1. -/
theorem complete_fail_records (id : EngineId) (msg : String) (ec : ℤ) (h : ec ≠ 0) :
    (complete_record id msg 0).phase = "completing"
  ∧ (complete_record id msg 0).progress = 95
  ∧ (complete_record id msg 0).exit_code = some 0
  ∧ (complete_record id msg ec).phase = "completing"
  ∧ (complete_record id msg ec).progress = 50
  ∧ (fail_record id "Task failed" 1).phase = "completing"
  ∧ (fail_record id "Task failed" 1).progress = 50
  ∧ (fail_record id "Task failed" 1).exit_code = some 1 := by
  refine ⟨rfl, ?_, rfl, ?_, ?_, rfl, ?_, ?_⟩
  · norm_num [complete_record, write_status_record]
  · simp [complete_record, write_status_record, h]
  · simp [complete_record, write_status_record, h]
  · norm_num [fail_record, write_status_record]
  · norm_num [fail_record, write_status_record]

/-- Witness for C6 at the concrete nonzero exit code 2. -/
theorem complete_fail_records_witness :
    (complete_record ⟨"p", "0", "", "overlay", "/kapsis-status"⟩ "done" 2).progress = 50 :=
  (complete_fail_records ⟨"p", "0", "", "overlay", "/kapsis-status"⟩ "done" 2
    (by decide)).2.2.2.2.1

/-- C9: a published record carries an exit code exactly when it is a terminal
record from `complete` or `fail` (whose phase is `completing`); records from
`update` never carry one, whatever the phase argument — including
`completing`. -/
theorem exit_code_only_terminal (id : EngineId) (phase msg : String) (p ec : ℤ) :
    (update_record id phase p msg).exit_code = none
  ∧ (update_record id "completing" p msg).exit_code = none
  ∧ (complete_record id msg ec).exit_code = some ec
  ∧ (complete_record id msg ec).phase = "completing"
  ∧ (fail_record id msg ec).exit_code = some (if ec = 0 then 1 else ec)
  ∧ (fail_record id msg ec).phase = "completing" := by
  exact ⟨rfl, rfl, rfl, rfl, rfl, rfl⟩

/-- C7: one publish writes the serialized content to a temp file in the same
directory as the status file and then renames it onto the final path; in every
state a concurrent reader can observe, the final path holds either the
complete prior content or the complete new content — never a truncation — and
after the publish it holds exactly the new content. -/
theorem publish_atomic :
    (∀ id : EngineId, (tempFilePath id).dir = (statusFilePath id).dir)
  ∧ (∀ (fs0 : FsView) (content : String),
      ∀ s ∈ publishObservable fs0 content,
        s.finalContent = fs0.finalContent ∨ s.finalContent = some content)
  ∧ (∀ (fs0 : FsView) (content : String),
      publishFinal content ∈ publishObservable fs0 content
      ∧ (publishFinal content).finalContent = some content) := by
  refine ⟨fun id => rfl, ?_, ?_⟩
  · intro fs0 content s hs
    simp only [publishObservable, List.mem_cons, List.mem_append, List.mem_map,
      List.mem_range, List.not_mem_nil, or_false] at hs
    rcases hs with rfl | ⟨⟨k, _, rfl⟩ | rfl⟩
    · exact Or.inl rfl
    · exact Or.inl rfl
    · exact Or.inr rfl
  · intro fs0 content
    refine ⟨?_, rfl⟩
    simp [publishObservable, publishFinal]

/-- Witness for C7 at a concrete filesystem state and content. -/
theorem publish_atomic_witness :
    (⟨some "old", none⟩ : FsView) ∈ publishObservable ⟨some "old", none⟩ "new"
  ∧ ((⟨some "old", none⟩ : FsView).finalContent = (⟨some "old", none⟩ : FsView).finalContent
      ∨ (⟨some "old", none⟩ : FsView).finalContent = some "new") :=
  ⟨by simp [publishObservable],
    publish_atomic.2.1 ⟨some "old", none⟩ "new" ⟨some "old", none⟩ (by simp [publishObservable])⟩

/-- C8: every publish attempt against a failing filesystem is contained: the
operation returns `false` (publishing nothing) instead of propagating an
exception, and each of `update`, `auto_update`, `complete` and `fail` returns
exactly the success of the underlying write. -/
theorem publish_failure_contained (env : FsEnv) (id : EngineId) (g : Engine)
    (phase msg tool cmd fp : String) (p ec : ℤ) :
    (update_run env id phase p msg).1 = env.writeOk
  ∧ (complete_run env id msg ec).1 = env.writeOk
  ∧ (fail_run env id msg ec).1 = env.writeOk
  ∧ (auto_update_run env g tool cmd fp).2.1 = env.writeOk
  ∧ (env.writeOk = false → (update_run env id phase p msg).2 = none) := by
  cases hw : env.writeOk <;>
    simp [update_run, complete_run, fail_run, auto_update_run, write_status_run,
      writeE, hw]

/-- Witness for C8 at a concrete failing environment. -/
theorem publish_failure_contained_witness :
    (update_run ⟨true, false⟩ ⟨"p", "0", "", "overlay", "/kapsis-status"⟩ "testing" 50 "m").2
      = none :=
  (publish_failure_contained ⟨true, false⟩ ⟨"p", "0", "", "overlay", "/kapsis-status"⟩
    ⟨⟨"p", "0", "", "overlay", "/kapsis-status"⟩, ⟨0,0,0,0,0⟩⟩
    "testing" "m" "t" "c" "f" 50 0).2.2.2.2 rfl

/-- C3: the classifier is total into the five categories; names equal
case-insensitively to the read/grep/glob/search/find set map to explore, to
the write/edit set to implement; `bash` commands are matched in the fixed
order build tokens, test tokens, `git commit`, implement; any other name maps
to implement; the five spec examples hold; and a bash command containing both
a build token and a test token classifies as build. -/
theorem map_tool_to_category_spec (t c : String) :
    (map_tool_to_category t c ∈ ["explore", "implement", "build", "test", "commit"])
  ∧ (lowerStr t ∈ exploreTools → map_tool_to_category t c = "explore")
  ∧ (lowerStr t ∈ implementTools → map_tool_to_category t c = "implement")
  ∧ (lowerStr t = "bash" → containsAnyTok buildTokens (lowerStr c) = true →
      map_tool_to_category t c = "build")
  ∧ (lowerStr t = "bash" → containsAnyTok buildTokens (lowerStr c) = false →
      containsAnyTok testTokens (lowerStr c) = true →
      map_tool_to_category t c = "test")
  ∧ (lowerStr t = "bash" → containsAnyTok buildTokens (lowerStr c) = false →
      containsAnyTok testTokens (lowerStr c) = false →
      containsTok "git commit" (lowerStr c) = true →
      map_tool_to_category t c = "commit")
  ∧ (lowerStr t = "bash" → containsAnyTok buildTokens (lowerStr c) = false →
      containsAnyTok testTokens (lowerStr c) = false →
      containsTok "git commit" (lowerStr c) = false →
      map_tool_to_category t c = "implement")
  ∧ (lowerStr t ∉ exploreTools → lowerStr t ∉ implementTools → lowerStr t ≠ "bash" →
      map_tool_to_category t c = "implement")
  ∧ (containsAnyTok buildTokens (lowerStr c) = true →
      containsAnyTok testTokens (lowerStr c) = true →
      map_tool_to_category "Bash" c = "build")
  ∧ map_tool_to_category "Bash" "npm run build" = "build"
  ∧ map_tool_to_category "Bash" "pytest -v" = "test"
  ∧ map_tool_to_category "Bash" "git commit -m x" = "commit"
  ∧ map_tool_to_category "Bash" "echo hi" = "implement"
  ∧ map_tool_to_category "Read" "" = "explore" := by
  refine ⟨?_, ?_, ?_, ?_, ?_, ?_, ?_, ?_, ?_, by decide, by decide, by decide, by decide,
    by decide⟩
  · unfold map_tool_to_category
    split_ifs <;> simp
  · intro h
    simp [map_tool_to_category, h]
  · intro h
    have hne : lowerStr t ∉ exploreTools := by
      simp only [implementTools, List.mem_cons, List.not_mem_nil, or_false] at h
      rcases h with h | h | h <;> rw [h] <;> decide
    simp [map_tool_to_category, hne, h]
  · intro hb h
    simp [map_tool_to_category, hb, h, exploreTools, implementTools]
  · intro hb h1 h2
    simp [map_tool_to_category, hb, h1, h2, exploreTools, implementTools]
  · intro hb h1 h2 h3
    simp [map_tool_to_category, hb, h1, h2, h3, exploreTools, implementTools]
  · intro hb h1 h2 h3
    simp [map_tool_to_category, hb, h1, h2, h3, exploreTools, implementTools]
  · intro h1 h2 h3
    simp [map_tool_to_category, h1, h2, h3]
  · intro h1 _
    have hb : lowerStr "Bash" = "bash" := by decide
    simp [map_tool_to_category, hb, h1, exploreTools, implementTools]

/-- Witness for C3: the build-token rule applied at a command that contains
both a build token and a test token. -/
theorem map_tool_to_category_spec_witness :
    containsAnyTok buildTokens (lowerStr "npm test") = true
  ∧ containsAnyTok testTokens (lowerStr "npm test") = true
  ∧ map_tool_to_category "Bash" "npm test" = "build" :=
  ⟨by decide, by decide,
    (map_tool_to_category_spec "Bash" "npm test").2.2.2.2.2.2.2.2.1 (by decide) (by decide)⟩

/-- C10 counterexample: an explicitly supplied empty-string argument is NOT
used in preference to the environment — Python's `or` treats it as falsy, so
the environment value wins. -/
theorem ctor_explicit_arg_counterexample :
    (mkEngineId ⟨some "", none, none, none, none⟩
        ⟨some "envproj", none, none, none, none⟩).project = "envproj"
  ∧ (mkEngineId ⟨some "", none, none, none, none⟩
        ⟨some "envproj", none, none, none, none⟩).project ≠ "" := by
  exact ⟨rfl, by decide⟩

/-- C10 (amended): every explicitly supplied NON-EMPTY constructor argument
is used in preference to the environment; an absent (or empty-string, hence
falsy) argument falls back to the environment value and failing that to the
defaults project "unknown", agent id "0", branch "", sandbox mode "overlay",
status dir "/kapsis-status"; and the resolved identity is never changed by
recording tools. -/
theorem ctor_resolution (a : CtorArgs) (e : EnvVars) (g : Engine) (s : String)
    (hs : s ≠ "") :
    (a.project = some s → (mkEngineId a e).project = s)
  ∧ (a.agent_id = some s → (mkEngineId a e).agent_id = s)
  ∧ (a.branch = some s → (mkEngineId a e).branch = s)
  ∧ (a.sandbox_mode = some s → (mkEngineId a e).sandbox_mode = s)
  ∧ (a.status_dir = some s → (mkEngineId a e).status_dir = s)
  ∧ ((a.project = none ∨ a.project = some "") →
      (mkEngineId a e).project = envGet e.project "unknown")
  ∧ ((a.agent_id = none ∨ a.agent_id = some "") →
      (mkEngineId a e).agent_id = envGet e.agent_id "0")
  ∧ ((a.branch = none ∨ a.branch = some "") →
      (mkEngineId a e).branch = envGet e.branch "")
  ∧ ((a.sandbox_mode = none ∨ a.sandbox_mode = some "") →
      (mkEngineId a e).sandbox_mode = envGet e.sandbox_mode "overlay")
  ∧ ((a.status_dir = none ∨ a.status_dir = some "") →
      (mkEngineId a e).status_dir = envGet e.status_dir "/kapsis-status")
  ∧ (e.project = none → envGet e.project "unknown" = "unknown")
  ∧ (e.agent_id = none → envGet e.agent_id "0" = "0")
  ∧ (e.branch = none → envGet e.branch "" = "")
  ∧ (e.sandbox_mode = none → envGet e.sandbox_mode "overlay" = "overlay")
  ∧ (e.status_dir = none → envGet e.status_dir DEFAULT_STATUS_DIR = "/kapsis-status")
  ∧ (∀ tool cmd, (engineRecordTool g tool cmd).id = g.id) := by
  refine ⟨?_, ?_, ?_, ?_, ?_, ?_, ?_, ?_, ?_, ?_, ?_, ?_, ?_, ?_, ?_, fun _ _ => rfl⟩ <;>
    intro h
  case _ => simp [mkEngineId, pyOr, h, hs]
  case _ => simp [mkEngineId, pyOr, h, hs]
  case _ => simp [mkEngineId, pyOr, h, hs]
  case _ => simp [mkEngineId, pyOr, h, hs]
  case _ => simp [mkEngineId, pyOr, h, hs]
  case _ => rcases h with h | h <;> simp [mkEngineId, pyOr, h]
  case _ => rcases h with h | h <;> simp [mkEngineId, pyOr, h]
  case _ => rcases h with h | h <;> simp [mkEngineId, pyOr, h]
  case _ => rcases h with h | h <;> simp [mkEngineId, pyOr, h]
  case _ => rcases h with h | h <;> simp [mkEngineId, pyOr, h, DEFAULT_STATUS_DIR]
  case _ => simp [envGet, h]
  case _ => simp [envGet, h]
  case _ => simp [envGet, h]
  case _ => simp [envGet, h]
  case _ => simp [envGet, h, DEFAULT_STATUS_DIR]

/-- Witness for C10 at concrete arguments, environment and non-empty string. -/
theorem ctor_resolution_witness :
    (mkEngineId ⟨some "myproj", none, none, none, none⟩
        ⟨some "envproj", none, none, none, none⟩).project = "myproj" :=
  (ctor_resolution ⟨some "myproj", none, none, none, none⟩
    ⟨some "envproj", none, none, none, none⟩
    ⟨⟨"p", "0", "", "overlay", "/kapsis-status"⟩, ⟨0,0,0,0,0⟩⟩
    "myproj" (by decide)).1 rfl

/-! ### Lemmas for the double-precision analysis of `calculate_progress` -/

theorem eps_pos : 0 < eps := by norm_num [eps]

theorem eps_small : eps ≤ 1 / 1000000000 := by norm_num [eps]

theorem dyVal_nonneg (p : Dy) : 0 ≤ dyVal p := by
  unfold dyVal; positivity

theorem dyVal_pos_num {p : Dy} (h : 0 < dyVal p) : 0 < p.1 := by
  by_contra hn
  have h0 : p.1 = 0 := by omega
  rw [dyVal, h0] at h
  norm_num at h

theorem dyVal_fadd (p q : Dy) (hp : 0 < p.2) (hq : 0 < q.2) :
    dyVal (fadd p q) = dyVal p + dyVal q := by
  have hp' : ((p.2 : ℚ)) ≠ 0 := by positivity
  have hq' : ((q.2 : ℚ)) ≠ 0 := by positivity
  unfold dyVal fadd
  push_cast
  field_simp

theorem dyVal_fmul (p q : Dy) : dyVal (fmul p q) = dyVal p * dyVal q := by
  unfold dyVal fmul
  push_cast
  rw [div_mul_div_comm]

theorem dyVal_fdiv (p q : Dy) (hp : 0 < p.2) (hq1 : 0 < q.1) (hq2 : 0 < q.2) :
    dyVal (fdiv p q) = dyVal p / dyVal q := by
  have hp' : ((p.2 : ℚ)) ≠ 0 := by positivity
  have hq1' : ((q.1 : ℚ)) ≠ 0 := by positivity
  have hq2' : ((q.2 : ℚ)) ≠ 0 := by positivity
  unfold dyVal fdiv
  push_cast
  field_simp

/-- Specification of the binary normalization loop: with enough fuel it lands
the mantissa `a/b` in `[1,2)` while preserving the value `a/b · 2^e`. -/
theorem normDy_spec (fuel : ℕ) : ∀ (a b : ℕ) (e : ℤ), 0 < a → 0 < b →
    a ≤ b * 2^fuel → b ≤ a * 2^fuel →
    ∃ (x y : ℕ) (z : ℤ), normDy fuel a b e = (x, y, z) ∧
      0 < x ∧ 0 < y ∧ y ≤ x ∧ x < 2 * y ∧
      (x : ℚ) / (y : ℚ) * (2:ℚ)^z = (a : ℚ) / (b : ℚ) * (2:ℚ)^e := by
  induction fuel with
  | zero =>
    intro a b e ha hb h1 h2
    simp only [pow_zero, mul_one] at h1 h2
    exact ⟨a, b, e, rfl, ha, hb, h2, by omega, rfl⟩
  | succ f ih =>
    intro a b e ha hb h1 h2
    have h2ne : (2:ℚ) ≠ 0 := by norm_num
    by_cases hlt : a < b
    · -- value < 1 : double the numerator
      have hval : ((2*a : ℕ) : ℚ) / (b : ℚ) * (2:ℚ)^(e - 1) = (a : ℚ) / (b : ℚ) * (2:ℚ)^e := by
        have h2e : (2:ℚ)^(e-1) = (2:ℚ)^e / 2 := by
          rw [zpow_sub₀ h2ne, zpow_one]
        push_cast
        rw [h2e]
        ring
      have hstep : normDy (f+1) a b e = normDy f (2*a) b (e-1) := by
        simp [normDy, hlt]
      rcases Nat.eq_zero_or_pos f with hf | hf
      · subst hf
        have hb2a : b ≤ 2*a := by
          have := h2
          simp only [pow_one] at this
          omega
        refine ⟨2*a, b, e - 1, ?_, by omega, hb, hb2a, by omega, hval⟩
        rw [hstep]
        rfl
      · have hf2 : 2 ≤ 2^f := by
          calc (2:ℕ) = 2^1 := by norm_num
          _ ≤ 2^f := Nat.pow_le_pow_right (by norm_num) hf
        have hr1 : 2*a ≤ b * 2^f := by
          have hab2 : 2*a ≤ 2*b := by omega
          have hb2 : b*2 ≤ b * 2^f := Nat.mul_le_mul_left b hf2
          omega
        have hr2 : b ≤ (2*a) * 2^f := by
          calc b ≤ a * 2^(f+1) := h2
          _ = (2*a) * 2^f := by ring
        obtain ⟨x, y, z, hxyz, hx, hy, hyx, hxy, hv⟩ := ih (2*a) b (e-1) (by omega) hb hr1 hr2
        exact ⟨x, y, z, by rw [hstep, hxyz], hx, hy, hyx, hxy, by rw [hv, hval]⟩
    · by_cases hge : 2*b ≤ a
      · -- value ≥ 2 : double the denominator
        have hval : (a : ℚ) / ((2*b : ℕ) : ℚ) * (2:ℚ)^(e + 1) = (a : ℚ) / (b : ℚ) * (2:ℚ)^e := by
          have h2e : (2:ℚ)^(e+1) = (2:ℚ)^e * 2 := zpow_add_one₀ h2ne e
          have hb' : ((b:ℚ)) ≠ 0 := by positivity
          push_cast
          rw [h2e]
          field_simp
          ring
        have hstep : normDy (f+1) a b e = normDy f a (2*b) (e+1) := by
          simp [normDy, hlt, hge]
        have hr1 : a ≤ (2*b) * 2^f := by
          calc a ≤ b * 2^(f+1) := h1
          _ = (2*b) * 2^f := by ring
        have hr2 : 2*b ≤ a * 2^f := by
          have h1f : 1 ≤ 2^f := Nat.one_le_pow f 2 (by norm_num)
          have : a*1 ≤ a*2^f := Nat.mul_le_mul_left a h1f
          omega
        obtain ⟨x, y, z, hxyz, hx, hy, hyx, hxy, hv⟩ := ih a (2*b) (e+1) ha (by omega) hr1 hr2
        exact ⟨x, y, z, by rw [hstep, hxyz], hx, hy, hyx, hxy, by rw [hv, hval]⟩
      · -- mantissa already in [1,2)
        have hres : normDy (f+1) a b e = (a, b, e) := by
          simp [normDy, hlt, hge]
        exact ⟨a, b, e, hres, ha, hb, by omega, by omega, rfl⟩

/-- Value of the dyadic representation `m · 2^k` produced by `roundDy`. -/
theorem dyVal_ofExp (m : ℕ) (k : ℤ) :
    dyVal (if 0 ≤ k then (m * 2^k.toNat, 1) else (m, 2^(-k).toNat)) = (m:ℚ) * (2:ℚ)^k := by
  by_cases hk : 0 ≤ k
  · rw [if_pos hk]
    unfold dyVal
    push_cast
    rw [div_one, ← zpow_natCast (2:ℚ) k.toNat, Int.toNat_of_nonneg hk]
  · rw [if_neg hk]
    unfold dyVal
    push_cast
    rw [← zpow_natCast (2:ℚ) (-k).toNat, Int.toNat_of_nonneg (by omega), zpow_neg,
      div_eq_mul_inv, inv_inv]

/-- Denominator positivity for the representation produced by `roundDy`. -/
theorem den_ofExp_pos (m : ℕ) (k : ℤ) :
    0 < (if 0 ≤ k then (m * 2^k.toNat, 1) else (m, 2^(-k).toNat) : Dy).2 := by
  by_cases hk : 0 ≤ k
  · rw [if_pos hk]
    norm_num
  · rw [if_neg hk]
    positivity

/-- Correct rounding is a relative `2⁻⁵²` perturbation: `roundDy` moves a
positive value whose magnitude normalizes within the fuel bound by at most
one part in `2⁵²`. -/
theorem roundDy_err (p : Dy) (h1 : 0 < p.1) (h2 : 0 < p.2)
    (hlo : p.1 ≤ p.2 * 2^600) (hhi : p.2 ≤ p.1 * 2^600) :
    0 < (roundDy p).2 ∧ |dyVal (roundDy p) - dyVal p| ≤ dyVal p / 2^52 := by
  obtain ⟨x, y, z, hxyz, hx, hy, hyx, hxy, hv⟩ :=
    normDy_spec 600 p.1 p.2 0 h1 h2 hlo hhi
  have hcond : ¬(p.1 = 0 ∨ p.2 = 0) := by omega
  have h2ne : (2:ℚ) ≠ 0 := by norm_num
  have hy' : (0:ℚ) < (y:ℚ) := by exact_mod_cast hy
  have hvp : dyVal p = (x:ℚ) / (y:ℚ) * (2:ℚ)^z := by
    have hv' := hv
    rw [zpow_zero, mul_one] at hv'
    rw [dyVal, ← hv']
  have hz52 : (2:ℚ)^(z - 52) = (2:ℚ)^z / 2^52 := by
    rw [zpow_sub₀ h2ne]
    norm_num
  have hzpos : (0:ℚ) < (2:ℚ)^(z - 52) := by positivity
  have hvlow : (2:ℚ)^z ≤ dyVal p := by
    rw [hvp]
    have hxy1 : (1:ℚ) ≤ (x:ℚ) / (y:ℚ) := by
      rw [le_div_iff₀ hy', one_mul]
      exact_mod_cast hyx
    calc (2:ℚ)^z = 1 * (2:ℚ)^z := (one_mul _).symm
    _ ≤ (x:ℚ) / (y:ℚ) * (2:ℚ)^z :=
        mul_le_mul_of_nonneg_right hxy1 (by positivity)
  have hvS : dyVal p = (((x * 2^52 : ℕ):ℚ) / (y:ℚ)) * (2:ℚ)^(z - 52) := by
    rw [hvp, hz52]
    push_cast
    have h52 : ((2:ℚ)^(52:ℕ)) ≠ 0 := by positivity
    field_simp
    ring
  -- the error bound for any candidate mantissa that is the floor or its successor
  have key : ∀ nr : ℕ, (nr = x * 2^52 / y ∨ nr = x * 2^52 / y + 1) →
      |(nr:ℚ) * (2:ℚ)^(z - 52) - dyVal p| ≤ dyVal p / 2^52 := by
    intro nr hcase
    have hgoal : |(nr:ℚ) * (2:ℚ)^(z - 52) - dyVal p|
        = |(nr:ℚ) - ((x * 2^52 : ℕ):ℚ) / (y:ℚ)| * (2:ℚ)^(z - 52) := by
      rw [hvS, ← sub_mul, abs_mul, abs_of_pos hzpos]
    rw [hgoal]
    have hfloor : ((x * 2^52 / y : ℕ):ℚ) ≤ ((x * 2^52 : ℕ):ℚ) / (y:ℚ) := by
      rw [le_div_iff₀ hy']
      exact_mod_cast Nat.div_mul_le_self (x * 2^52) y
    have hceil : ((x * 2^52 : ℕ):ℚ) / (y:ℚ) < ((x * 2^52 / y : ℕ):ℚ) + 1 := by
      rw [div_lt_iff₀ hy']
      have hnat : x * 2^52 < (x * 2^52 / y + 1) * y := by
        have hdm := (Nat.div_add_mod (x * 2^52) y).symm
        have hml := Nat.mod_lt (x * 2^52) hy
        calc x * 2^52 = y * (x * 2^52 / y) + x * 2^52 % y := hdm
        _ < y * (x * 2^52 / y) + y := by omega
        _ = (x * 2^52 / y + 1) * y := by ring
      exact_mod_cast hnat
    have habs : |(nr:ℚ) - ((x * 2^52 : ℕ):ℚ) / (y:ℚ)| ≤ 1 := by
      rcases hcase with h | h <;> subst h <;> push_cast <;>
        rw [abs_le] <;> constructor <;> push_cast at hfloor hceil <;> linarith
    calc |(nr:ℚ) - ((x * 2^52 : ℕ):ℚ) / (y:ℚ)| * (2:ℚ)^(z - 52)
        ≤ 1 * (2:ℚ)^(z - 52) := mul_le_mul_of_nonneg_right habs hzpos.le
    _ = (2:ℚ)^z / 2^52 := by rw [one_mul, hz52]
    _ ≤ dyVal p / 2^52 := by gcongr
  have hrd : roundDy p =
      (if 0 ≤ z - 52 then
        ((if y < 2*(x * 2^52 % y) then x * 2^52 / y + 1
          else if 2*(x * 2^52 % y) < y then x * 2^52 / y
          else (if (x * 2^52 / y) % 2 = 0 then x * 2^52 / y else x * 2^52 / y + 1))
            * 2^(z - 52).toNat, 1)
      else
        ((if y < 2*(x * 2^52 % y) then x * 2^52 / y + 1
          else if 2*(x * 2^52 % y) < y then x * 2^52 / y
          else (if (x * 2^52 / y) % 2 = 0 then x * 2^52 / y else x * 2^52 / y + 1)),
         2^(-(z - 52)).toNat)) := by
    unfold roundDy
    rw [if_neg hcond, hxyz]
  constructor
  · rw [hrd]
    exact den_ofExp_pos _ (z - 52)
  · have hval : dyVal (roundDy p) =
        ((if y < 2*(x * 2^52 % y) then x * 2^52 / y + 1
          else if 2*(x * 2^52 % y) < y then x * 2^52 / y
          else (if (x * 2^52 / y) % 2 = 0 then x * 2^52 / y else x * 2^52 / y + 1) : ℕ):ℚ)
          * (2:ℚ)^(z - 52) := by
      rw [hrd]
      exact dyVal_ofExp _ (z - 52)
    rw [hval]
    apply key
    split_ifs <;> simp

theorem eps_eq : eps = 1 / 1125899906842624 := by norm_num [eps]

theorem dyApprox_exact (k : ℕ) : DyApprox (k, 1) (k:ℚ) 0 := by
  refine ⟨one_pos, ?_, ?_⟩ <;> simp [dyVal]

theorem dyApprox_mono {p : Dy} {a : ℚ} {n m : ℕ} (h : DyApprox p a n) (hnm : n ≤ m)
    (ha : 0 ≤ a) : DyApprox p a m := by
  obtain ⟨hden, hl, hr⟩ := h
  have hc : ((n:ℚ)) ≤ (m:ℚ) := by exact_mod_cast hnm
  have he := eps_pos
  refine ⟨hden, ?_, ?_⟩ <;>
    nlinarith [mul_nonneg (mul_nonneg ha he.le) (sub_nonneg.mpr hc)]

theorem dyApprox_val_nonneg {p : Dy} {a : ℚ} {n : ℕ} (_ : DyApprox p a n) :
    0 ≤ dyVal p := dyVal_nonneg p

theorem dyApprox_fadd {p q : Dy} {a b : ℚ} {n m : ℕ} (hp : DyApprox p a n)
    (hq : DyApprox q b m) (ha : 0 ≤ a) (hb : 0 ≤ b) :
    DyApprox (fadd p q) (a + b) (max n m) := by
  obtain ⟨hpd, hpl, hpr⟩ := hp
  obtain ⟨hqd, hql, hqr⟩ := hq
  have hnc : ((n:ℚ)) ≤ ((max n m : ℕ):ℚ) := by exact_mod_cast Nat.le_max_left n m
  have hmc : ((m:ℚ)) ≤ ((max n m : ℕ):ℚ) := by exact_mod_cast Nat.le_max_right n m
  have he := eps_pos
  refine ⟨show 0 < p.2 * q.2 from mul_pos hpd hqd, ?_, ?_⟩ <;>
    rw [dyVal_fadd p q hpd hqd] <;>
    nlinarith [mul_nonneg (mul_nonneg ha he.le) (sub_nonneg.mpr hnc),
      mul_nonneg (mul_nonneg hb he.le) (sub_nonneg.mpr hmc)]

theorem dyApprox_fmul {p q : Dy} {a b : ℚ} {n m : ℕ} (hp : DyApprox p a n)
    (hq : DyApprox q b m) (ha : 0 ≤ a) (hb : 0 ≤ b) (hn : n ≤ 200) (hm : m ≤ 200) :
    DyApprox (fmul p q) (a * b) (n + m + 1) := by
  obtain ⟨hpd, hpl, hpr⟩ := hp
  obtain ⟨hqd, hql, hqr⟩ := hq
  have hxn := dyVal_nonneg p
  have hyn := dyVal_nonneg q
  have hnc : ((n:ℚ)) ≤ 200 := by exact_mod_cast hn
  have hmc : ((m:ℚ)) ≤ 200 := by exact_mod_cast hm
  have hn0 : (0:ℚ) ≤ (n:ℚ) := by positivity
  have hm0 : (0:ℚ) ≤ (m:ℚ) := by positivity
  have heps := eps_eq
  have hab : (0:ℚ) ≤ a * b := mul_nonneg ha hb
  have hne : (n:ℚ) * eps ≤ 200 * eps := mul_le_mul_of_nonneg_right hnc eps_pos.le
  have hme : (m:ℚ) * eps ≤ 200 * eps := mul_le_mul_of_nonneg_right hmc eps_pos.le
  have h1n : (0:ℚ) ≤ 1 - (n:ℚ) * eps := by rw [heps] at hne ⊢; linarith
  have h1m : (0:ℚ) ≤ 1 - (m:ℚ) * eps := by rw [heps] at hme ⊢; linarith
  have h1n' : (0:ℚ) ≤ 1 + (n:ℚ) * eps := by
    have := mul_nonneg hn0 eps_pos.le
    linarith
  have hBnn : (0:ℚ) ≤ b * (1 - (m:ℚ) * eps) := mul_nonneg hb h1m
  have hA'nn : (0:ℚ) ≤ a * (1 + (n:ℚ) * eps) := mul_nonneg ha h1n'
  have hcast : (((n + m + 1 : ℕ)):ℚ) = (n:ℚ) + (m:ℚ) + 1 := by push_cast; ring
  have hlow : a * (1 - (n:ℚ) * eps) * (b * (1 - (m:ℚ) * eps)) ≤ dyVal p * dyVal q :=
    mul_le_mul hpl hql hBnn hxn
  have hhigh : dyVal p * dyVal q ≤ a * (1 + (n:ℚ) * eps) * (b * (1 + (m:ℚ) * eps)) :=
    mul_le_mul hpr hqr hyn hA'nn
  have hnm200 : (n:ℚ) * (m:ℚ) ≤ 40000 := by
    have := mul_le_mul hnc hmc hm0 (by norm_num : (0:ℚ) ≤ 200)
    linarith
  have hnmeps : (n:ℚ) * (m:ℚ) * eps ≤ 1 := by
    have h := mul_le_mul_of_nonneg_right hnm200 eps_pos.le
    rw [heps] at h ⊢
    linarith
  have habe : (0:ℚ) ≤ a * b * eps := mul_nonneg hab eps_pos.le
  have habnm : (0:ℚ) ≤ a * b * ((n:ℚ) * (m:ℚ) * eps * eps) :=
    mul_nonneg hab (mul_nonneg (mul_nonneg (mul_nonneg hn0 hm0) eps_pos.le) eps_pos.le)
  have habnm1 : (0:ℚ) ≤ a * b * eps * (1 - (n:ℚ) * (m:ℚ) * eps) :=
    mul_nonneg habe (by linarith)
  refine ⟨show 0 < p.2 * q.2 from mul_pos hpd hqd, ?_, ?_⟩ <;>
    rw [dyVal_fmul p q, hcast]
  · nlinarith [hlow, habe, habnm]
  · nlinarith [hhigh, habnm1]

theorem dyApprox_fdiv {p q : Dy} {a b : ℚ} {n m : ℕ} (hp : DyApprox p a n)
    (hq : DyApprox q b m) (ha : 0 ≤ a) (hb : 0 < b) (hn : n ≤ 200) (hm : m ≤ 200) :
    DyApprox (fdiv p q) (a / b) (n + m + 1) := by
  obtain ⟨hpd, hpl, hpr⟩ := hp
  obtain ⟨hqd, hql, hqr⟩ := hq
  have hnc : ((n:ℚ)) ≤ 200 := by exact_mod_cast hn
  have hmc : ((m:ℚ)) ≤ 200 := by exact_mod_cast hm
  have hn0 : (0:ℚ) ≤ (n:ℚ) := by positivity
  have hm0 : (0:ℚ) ≤ (m:ℚ) := by positivity
  have heps := eps_eq
  have hab : (0:ℚ) ≤ a * b := mul_nonneg ha hb.le
  have hne : (n:ℚ) * eps ≤ 200 * eps := mul_le_mul_of_nonneg_right hnc eps_pos.le
  have hme : (m:ℚ) * eps ≤ 200 * eps := mul_le_mul_of_nonneg_right hmc eps_pos.le
  have h1m : (0:ℚ) < 1 - (m:ℚ) * eps := by rw [heps] at hme ⊢; linarith
  have h1m' : (0:ℚ) < 1 + (m:ℚ) * eps := by
    have := mul_nonneg hm0 eps_pos.le
    linarith
  have h1n : (0:ℚ) ≤ 1 - (n:ℚ) * eps := by rw [heps] at hne ⊢; linarith
  have h1n' : (0:ℚ) ≤ 1 + (n:ℚ) * eps := by
    have := mul_nonneg hn0 eps_pos.le
    linarith
  have hbl : 0 < b * (1 - (m:ℚ) * eps) := mul_pos hb h1m
  have hbr : 0 < b * (1 + (m:ℚ) * eps) := mul_pos hb h1m'
  have hyv : 0 < dyVal q := lt_of_lt_of_le hbl hql
  have hq1 : 0 < q.1 := dyVal_pos_num hyv
  have hxv : 0 ≤ dyVal p := dyVal_nonneg p
  have hval : dyVal (fdiv p q) = dyVal p / dyVal q := dyVal_fdiv p q hpd hq1 hqd
  have hcast : (((n + m + 1 : ℕ)):ℚ) = (n:ℚ) + (m:ℚ) + 1 := by push_cast; ring
  have hK401 : ((n:ℚ) + (m:ℚ) + 1) * (m:ℚ) ≤ 80200 := by
    have h401 : ((n:ℚ) + (m:ℚ) + 1) ≤ 401 := by linarith
    have := mul_le_mul h401 hmc hm0 (by norm_num : (0:ℚ) ≤ 401)
    linarith
  have hKme : ((n:ℚ) + (m:ℚ) + 1) * (m:ℚ) * eps ≤ 1 := by
    have h := mul_le_mul_of_nonneg_right hK401 eps_pos.le
    rw [heps] at h ⊢
    linarith
  have habe : (0:ℚ) ≤ a * b * eps := mul_nonneg hab eps_pos.le
  have habKm : (0:ℚ) ≤ a * b * (((n:ℚ) + (m:ℚ) + 1) * (m:ℚ) * eps * eps) :=
    mul_nonneg hab (mul_nonneg (mul_nonneg (mul_nonneg (by linarith) hm0) eps_pos.le)
      eps_pos.le)
  have habKm1 : (0:ℚ) ≤ a * b * eps * (1 - ((n:ℚ) + (m:ℚ) + 1) * (m:ℚ) * eps) :=
    mul_nonneg habe (by linarith)
  refine ⟨show 0 < p.2 * q.1 from mul_pos hpd hq1, ?_, ?_⟩ <;> rw [hval, hcast]
  · have h1 : a * (1 - (n:ℚ) * eps) / (b * (1 + (m:ℚ) * eps)) ≤ dyVal p / dyVal q :=
      div_le_div hxv hpl hyv hqr
    have h2 : a / b * (1 - ((n:ℚ) + (m:ℚ) + 1) * eps)
        ≤ a * (1 - (n:ℚ) * eps) / (b * (1 + (m:ℚ) * eps)) := by
      rw [div_mul_eq_mul_div, div_le_div_iff hb hbr]
      nlinarith [habe, habKm]
    linarith
  · have h1 : dyVal p / dyVal q ≤ a * (1 + (n:ℚ) * eps) / (b * (1 - (m:ℚ) * eps)) :=
      div_le_div (mul_nonneg ha h1n') hpr hbl hql
    have h2 : a * (1 + (n:ℚ) * eps) / (b * (1 - (m:ℚ) * eps))
        ≤ a / b * (1 + ((n:ℚ) + (m:ℚ) + 1) * eps) := by
      rw [div_mul_eq_mul_div, div_le_div_iff hbl hb]
      nlinarith [habKm1]
    linarith

set_option maxRecDepth 8000 in
theorem dyApprox_round {p : Dy} {a : ℚ} {n : ℕ} (hp : DyApprox p a n) (ha : 0 < a)
    (hn : n ≤ 200) (ha1 : a ≤ 2^100) (ha2 : 1 ≤ a * 2^100) :
    DyApprox (roundDy p) a (n + 1) := by
  obtain ⟨hpd, hpl, hpr⟩ := hp
  have hnc : ((n:ℚ)) ≤ 200 := by exact_mod_cast hn
  have hn0 : (0:ℚ) ≤ (n:ℚ) := Nat.cast_nonneg n
  have heps := eps_eq
  have hne : (n:ℚ) * eps ≤ 200 * eps := mul_le_mul_of_nonneg_right hnc eps_pos.le
  have h1n : (0:ℚ) ≤ 1/2 - (n:ℚ) * eps := by rw [heps] at hne ⊢; linarith
  have hxlo : a / 2 ≤ dyVal p := by
    have h := mul_nonneg ha.le h1n
    have h2 : a * (1/2 - (n:ℚ) * eps) = a/2 - a * ((n:ℚ) * eps) := by ring
    have h3 : a * (1 - (n:ℚ) * eps) = a - a * ((n:ℚ) * eps) := by ring
    rw [h2] at h
    rw [h3] at hpl
    linarith
  have hxhi : dyVal p ≤ 2 * a := by
    have h := mul_nonneg ha.le (show (0:ℚ) ≤ 1 - (n:ℚ) * eps by linarith)
    have h2 : a * (1 - (n:ℚ) * eps) = a - a * ((n:ℚ) * eps) := by ring
    have h3 : a * (1 + (n:ℚ) * eps) = a + a * ((n:ℚ) * eps) := by ring
    rw [h2] at h
    rw [h3] at hpr
    linarith
  have hxpos : 0 < dyVal p := by linarith
  have hp1 : 0 < p.1 := dyVal_pos_num hxpos
  have hp2Q : (0:ℚ) < (p.2:ℚ) := by exact_mod_cast hpd
  have hveq : dyVal p = (p.1:ℚ) / (p.2:ℚ) := rfl
  have hpow : (2:ℚ) * 2^100 ≤ 2^600 := by
    have h1 : (2:ℚ) * 2^100 = 2^101 := by norm_num
    have h2 : (2:ℚ)^101 ≤ 2^600 := pow_le_pow_right (by norm_num) (by norm_num)
    linarith
  have hhiN : p.1 ≤ p.2 * 2^600 := by
    have hq : (p.1:ℚ) ≤ (p.2:ℚ) * 2^600 := by
      have hd : (p.1:ℚ) / (p.2:ℚ) ≤ 2 * a := by rw [← hveq]; exact hxhi
      rw [div_le_iff₀ hp2Q] at hd
      have h2a : 2 * a ≤ 2^600 := by nlinarith
      calc (p.1:ℚ) ≤ 2 * a * (p.2:ℚ) := hd
      _ ≤ 2^600 * (p.2:ℚ) := mul_le_mul_of_nonneg_right h2a hp2Q.le
      _ = (p.2:ℚ) * 2^600 := mul_comm _ _
    exact_mod_cast hq
  have hloN : p.2 ≤ p.1 * 2^600 := by
    have hq : (p.2:ℚ) ≤ (p.1:ℚ) * 2^600 := by
      have hp1Q : (0:ℚ) < (p.1:ℚ) := by exact_mod_cast hp1
      have hd : a / 2 * (p.2:ℚ) ≤ (p.1:ℚ) := by
        have := hxlo
        rw [hveq, le_div_iff₀ hp2Q] at this
        linarith
      have hstep : (p.2:ℚ) ≤ a / 2 * (p.2:ℚ) * (2 * 2^100) := by
        have h1 : a / 2 * (p.2:ℚ) * (2 * 2^100) = a * 2^100 * (p.2:ℚ) := by ring
        rw [h1]
        have h2 : (1:ℚ) * (p.2:ℚ) ≤ a * 2^100 * (p.2:ℚ) :=
          mul_le_mul_of_nonneg_right ha2 hp2Q.le
        linarith
      have hstep2 : a / 2 * (p.2:ℚ) * (2 * 2^100) ≤ (p.1:ℚ) * (2 * 2^100) :=
        mul_le_mul_of_nonneg_right hd (by positivity)
      have hstep3 : (p.1:ℚ) * (2 * 2^100) ≤ (p.1:ℚ) * 2^600 :=
        mul_le_mul_of_nonneg_left hpow hp1Q.le
      linarith
    exact_mod_cast hq
  obtain ⟨hden, herr⟩ := roundDy_err p hp1 hpd hhiN hloN
  rw [abs_le] at herr
  have hcast : (((n + 1 : ℕ)):ℚ) = (n:ℚ) + 1 := by push_cast; ring
  have hbr1 : a * (1 - (n:ℚ) * eps) * (1 - 1/2^52) ≤ dyVal p * (1 - 1/2^52) :=
    mul_le_mul_of_nonneg_right hpl (by norm_num)
  have hbr2 : dyVal p * (1 + 1/2^52) ≤ a * (1 + (n:ℚ) * eps) * (1 + 1/2^52) :=
    mul_le_mul_of_nonneg_right hpr (by norm_num)
  have t1 : (0:ℚ) ≤ a * (eps - 1/2^52) := mul_nonneg ha.le (by norm_num [eps])
  have t2 : (0:ℚ) ≤ a * ((n:ℚ) * eps * (1/2^52)) :=
    mul_nonneg ha.le (mul_nonneg (mul_nonneg hn0 eps_pos.le) (by norm_num))
  have s1 : (n:ℚ) * eps * (1/2^52) ≤ 200 * eps * (1/2^52) :=
    mul_le_mul_of_nonneg_right hne (by norm_num)
  have s2 : (0:ℚ) ≤ eps - 1/2^52 - 200 * eps * (1/2^52) := by norm_num [eps]
  have t3 : (0:ℚ) ≤ a * (eps - 1/2^52 - (n:ℚ) * eps * (1/2^52)) :=
    mul_nonneg ha.le (by linarith)
  refine ⟨hden, ?_, ?_⟩ <;> rw [hcast]
  · nlinarith [herr.1, hbr1, t1, t2]
  · nlinarith [herr.2, hbr2, t3]

theorem dyApprox_wExpF : DyApprox wExpF 0.15 1 := by
  have h0 : DyApprox (15, 100) 0.15 0 := by
    refine ⟨by norm_num, ?_, ?_⟩ <;> norm_num [dyVal]
  exact dyApprox_round h0 (by norm_num) (by norm_num) (by norm_num) (by norm_num)

theorem dyApprox_wImpF : DyApprox wImpF 0.35 1 := by
  have h0 : DyApprox (35, 100) 0.35 0 := by
    refine ⟨by norm_num, ?_, ?_⟩ <;> norm_num [dyVal]
  exact dyApprox_round h0 (by norm_num) (by norm_num) (by norm_num) (by norm_num)

theorem dyApprox_wBldF : DyApprox wBldF 0.20 1 := by
  have h0 : DyApprox (20, 100) 0.20 0 := by
    refine ⟨by norm_num, ?_, ?_⟩ <;> norm_num [dyVal]
  exact dyApprox_round h0 (by norm_num) (by norm_num) (by norm_num) (by norm_num)

theorem dyApprox_wTstF : DyApprox wTstF 0.20 1 := by
  have h0 : DyApprox (20, 100) 0.20 0 := by
    refine ⟨by norm_num, ?_, ?_⟩ <;> norm_num [dyVal]
  exact dyApprox_round h0 (by norm_num) (by norm_num) (by norm_num) (by norm_num)

theorem dyApprox_wCmtF : DyApprox wCmtF 0.10 1 := by
  have h0 : DyApprox (10, 100) 0.10 0 := by
    refine ⟨by norm_num, ?_, ?_⟩ <;> norm_num [dyVal]
  exact dyApprox_round h0 (by norm_num) (by norm_num) (by norm_num) (by norm_num)

theorem minTen_bounds (n : ℕ) (hn : 0 < n) :
    (1:ℚ) ≤ ((min n 10 : ℕ):ℚ) ∧ ((min n 10 : ℕ):ℚ) ≤ 10 := by
  constructor
  · have : 1 ≤ min n 10 := by omega
    exact_mod_cast this
  · have : min n 10 ≤ 10 := by omega
    exact_mod_cast this

set_option maxHeartbeats 1000000 in
theorem dyApprox_termF {w : Dy} {wq : ℚ} (hw : DyApprox w wq 1)
    (hw1 : 1/10 ≤ wq) (hw2 : wq ≤ 1/2) (n : ℕ) (hn : 0 < n) :
    DyApprox (termF w n) (wq * (((min n 10 : ℕ):ℚ) / 10)) 5 := by
  obtain ⟨he1, he10⟩ := minTen_bounds n hn
  have h1 : DyApprox (min n 10, 1) (((min n 10 : ℕ)):ℚ) 0 := dyApprox_exact _
  have h2 : DyApprox ((10:ℕ), 1) ((10:ℚ)) 0 := by
    have := dyApprox_exact 10
    norm_num at this ⊢
    exact this
  have h3 : DyApprox (fdiv (min n 10, 1) (10, 1)) (((min n 10 : ℕ):ℚ) / 10) 1 :=
    dyApprox_fdiv h1 h2 (by positivity) (by norm_num) (by norm_num) (by norm_num)
  have h4 : DyApprox (ddivF (min n 10, 1) (10, 1)) (((min n 10 : ℕ):ℚ) / 10) 2 :=
    dyApprox_round h3 (by linarith) (by norm_num) (by
      rw [div_le_iff₀ (by norm_num : (0:ℚ) < 10)]
      nlinarith) (by nlinarith)
  have h5 : DyApprox (fmul w (ddivF (min n 10, 1) (10, 1)))
      (wq * (((min n 10 : ℕ):ℚ) / 10)) 4 :=
    dyApprox_fmul hw h4 (by linarith) (by positivity) (by norm_num) (by norm_num)
  have h6 : DyApprox (dmulF w (ddivF (min n 10, 1) (10, 1)))
      (wq * (((min n 10 : ℕ):ℚ) / 10)) 5 := by
    refine dyApprox_round h5 ?_ (by norm_num) ?_ ?_
    · have : (1:ℚ)/10 ≤ ((min n 10 : ℕ):ℚ) / 10 := by linarith
      nlinarith
    · nlinarith
    · have hv : (1:ℚ)/100 ≤ wq * (((min n 10 : ℕ):ℚ) / 10) := by nlinarith
      nlinarith
  exact h6

theorem catContrib_nonneg (w : ℚ) (n : ℕ) (hw : 0 ≤ w) : 0 ≤ catContrib w n := by
  unfold catContrib
  split_ifs with h
  · have := (minTen_bounds n h).1
    positivity
  · rfl

theorem catContrib_le (w : ℚ) (n : ℕ) (hw : 0 ≤ w) : catContrib w n ≤ w := by
  unfold catContrib
  split_ifs with h
  · have := (minTen_bounds n h).2
    nlinarith
  · exact hw

theorem catWeight_nonneg (w : ℚ) (n : ℕ) (hw : 0 ≤ w) : 0 ≤ catWeight w n := by
  unfold catWeight
  split_ifs
  · exact hw
  · rfl

theorem catWeight_le (w : ℚ) (n : ℕ) (hw : 0 ≤ w) : catWeight w n ≤ w := by
  unfold catWeight
  split_ifs
  · exact le_refl w
  · exact hw

theorem dyApprox_stepWS {acc : Dy} {A : ℚ} {k : ℕ} (hacc : DyApprox acc A k)
    (hA0 : 0 ≤ A) (hA1 : A ≤ 1) (hk : k ≤ 100) {w : Dy} {wq : ℚ}
    (hw : DyApprox w wq 1) (hw1 : 1/10 ≤ wq) (hw2 : wq ≤ 1/2) (n : ℕ) :
    DyApprox (stepWS acc w n) (A + catContrib wq n) (k + 7) := by
  by_cases hn : 0 < n
  · have hT := dyApprox_termF hw hw1 hw2 n hn
    obtain ⟨he1, he10⟩ := minTen_bounds n hn
    have hT0 : (1:ℚ)/100 ≤ wq * (((min n 10 : ℕ):ℚ) / 10) := by nlinarith
    have hT1 : wq * (((min n 10 : ℕ):ℚ) / 10) ≤ 1/2 := by nlinarith
    have hadd : DyApprox (fadd acc (termF w n))
        (A + wq * (((min n 10 : ℕ):ℚ) / 10)) (max k 5) :=
      dyApprox_fadd hacc hT hA0 (by linarith)
    have hro : DyApprox (daddF acc (termF w n))
        (A + wq * (((min n 10 : ℕ):ℚ) / 10)) (max k 5 + 1) := by
      refine dyApprox_round hadd (by linarith) (by omega) (by nlinarith) (by nlinarith)
    have hstep : stepWS acc w n = daddF acc (termF w n) := by
      unfold stepWS
      rw [if_pos hn]
    have hcc : catContrib wq n = wq * (((min n 10 : ℕ):ℚ) / 10) := by
      unfold catContrib
      rw [if_pos hn]
    rw [hstep, hcc]
    exact dyApprox_mono hro (by omega) (by linarith)
  · have hstep : stepWS acc w n = acc := by
      unfold stepWS
      rw [if_neg hn]
    have hcc : catContrib wq n = 0 := by
      unfold catContrib
      rw [if_neg hn]
    rw [hstep, hcc, add_zero]
    exact dyApprox_mono hacc (by omega) hA0

theorem dyApprox_stepWT {acc : Dy} {A : ℚ} {k : ℕ} (hacc : DyApprox acc A k)
    (hA0 : 0 ≤ A) (hA1 : A ≤ 1) (hk : k ≤ 100) {w : Dy} {wq : ℚ}
    (hw : DyApprox w wq 1) (hw1 : 1/10 ≤ wq) (hw2 : wq ≤ 1/2) (n : ℕ) :
    DyApprox (stepWT acc w n) (A + catWeight wq n) (k + 3) := by
  by_cases hn : 0 < n
  · have hadd : DyApprox (fadd acc w) (A + wq) (max k 1) :=
      dyApprox_fadd hacc hw hA0 (by linarith)
    have hro : DyApprox (daddF acc w) (A + wq) (max k 1 + 1) := by
      refine dyApprox_round hadd (by linarith) (by omega) (by nlinarith) (by nlinarith)
    have hstep : stepWT acc w n = daddF acc w := by
      unfold stepWT
      rw [if_pos hn]
    have hcc : catWeight wq n = wq := by
      unfold catWeight
      rw [if_pos hn]
    rw [hstep, hcc]
    exact dyApprox_mono hro (by omega) (by linarith)
  · have hstep : stepWT acc w n = acc := by
      unfold stepWT
      rw [if_neg hn]
    have hcc : catWeight wq n = 0 := by
      unfold catWeight
      rw [if_neg hn]
    rw [hstep, hcc, add_zero]
    exact dyApprox_mono hacc (by omega) hA0

theorem dyApprox_wsF (c : ToolCounts) : DyApprox (wsF c) (weightedSum c) 35 := by
  have h0 : DyApprox ((0:ℕ), 1) (0:ℚ) 0 := by
    have := dyApprox_exact 0
    rw [Nat.cast_zero] at this
    exact this
  have n1 := catContrib_nonneg 0.15 c.explore (by norm_num)
  have n2 := catContrib_nonneg 0.35 c.implement (by norm_num)
  have n3 := catContrib_nonneg 0.20 c.build (by norm_num)
  have n4 := catContrib_nonneg 0.20 c.test (by norm_num)
  have l1 := catContrib_le 0.15 c.explore (by norm_num)
  have l2 := catContrib_le 0.35 c.implement (by norm_num)
  have l3 := catContrib_le 0.20 c.build (by norm_num)
  have l4 := catContrib_le 0.20 c.test (by norm_num)
  have hc1 := dyApprox_stepWS h0 (le_refl 0) (by norm_num) (by norm_num)
    dyApprox_wExpF (by norm_num) (by norm_num) c.explore
  have hc2 := dyApprox_stepWS hc1 (by linarith) (by linarith) (by norm_num)
    dyApprox_wImpF (by norm_num) (by norm_num) c.implement
  have hc3 := dyApprox_stepWS hc2 (by linarith) (by linarith) (by norm_num)
    dyApprox_wBldF (by norm_num) (by norm_num) c.build
  have hc4 := dyApprox_stepWS hc3 (by linarith) (by linarith) (by norm_num)
    dyApprox_wTstF (by norm_num) (by norm_num) c.test
  have hc5 := dyApprox_stepWS hc4 (by linarith) (by linarith) (by norm_num)
    dyApprox_wCmtF (by norm_num) (by norm_num) c.commit
  have hsum : weightedSum c = 0 + catContrib 0.15 c.explore + catContrib 0.35 c.implement
      + catContrib 0.20 c.build + catContrib 0.20 c.test + catContrib 0.10 c.commit := by
    unfold weightedSum
    ring
  rw [hsum]
  exact hc5

theorem dyApprox_wtF (c : ToolCounts) : DyApprox (wtF c) (weightedTotal c) 15 := by
  have h0 : DyApprox ((0:ℕ), 1) (0:ℚ) 0 := by
    have := dyApprox_exact 0
    rw [Nat.cast_zero] at this
    exact this
  have n1 := catWeight_nonneg 0.15 c.explore (by norm_num)
  have n2 := catWeight_nonneg 0.35 c.implement (by norm_num)
  have n3 := catWeight_nonneg 0.20 c.build (by norm_num)
  have n4 := catWeight_nonneg 0.20 c.test (by norm_num)
  have l1 := catWeight_le 0.15 c.explore (by norm_num)
  have l2 := catWeight_le 0.35 c.implement (by norm_num)
  have l3 := catWeight_le 0.20 c.build (by norm_num)
  have l4 := catWeight_le 0.20 c.test (by norm_num)
  have hc1 := dyApprox_stepWT h0 (le_refl 0) (by norm_num) (by norm_num)
    dyApprox_wExpF (by norm_num) (by norm_num) c.explore
  have hc2 := dyApprox_stepWT hc1 (by linarith) (by linarith) (by norm_num)
    dyApprox_wImpF (by norm_num) (by norm_num) c.implement
  have hc3 := dyApprox_stepWT hc2 (by linarith) (by linarith) (by norm_num)
    dyApprox_wBldF (by norm_num) (by norm_num) c.build
  have hc4 := dyApprox_stepWT hc3 (by linarith) (by linarith) (by norm_num)
    dyApprox_wTstF (by norm_num) (by norm_num) c.test
  have hc5 := dyApprox_stepWT hc4 (by linarith) (by linarith) (by norm_num)
    dyApprox_wCmtF (by norm_num) (by norm_num) c.commit
  have hsum : weightedTotal c = 0 + catWeight 0.15 c.explore + catWeight 0.35 c.implement
      + catWeight 0.20 c.build + catWeight 0.20 c.test + catWeight 0.10 c.commit := by
    unfold weightedTotal
    ring
  rw [hsum]
  exact hc5

theorem weightedSum_nonneg (c : ToolCounts) : 0 ≤ weightedSum c := by
  have n1 := catContrib_nonneg 0.15 c.explore (by norm_num)
  have n2 := catContrib_nonneg 0.35 c.implement (by norm_num)
  have n3 := catContrib_nonneg 0.20 c.build (by norm_num)
  have n4 := catContrib_nonneg 0.20 c.test (by norm_num)
  have n5 := catContrib_nonneg 0.10 c.commit (by norm_num)
  unfold weightedSum
  linarith

theorem catContrib_le_catWeight (w : ℚ) (n : ℕ) (hw : 0 ≤ w) :
    catContrib w n ≤ catWeight w n := by
  unfold catContrib catWeight
  split_ifs with h
  · have := (minTen_bounds n h).2
    nlinarith
  · exact le_refl 0

theorem catWeight_le_ten_catContrib (w : ℚ) (n : ℕ) (hw : 0 ≤ w) :
    catWeight w n ≤ 10 * catContrib w n := by
  unfold catContrib catWeight
  split_ifs with h
  · have := (minTen_bounds n h).1
    nlinarith
  · norm_num

theorem weightedSum_le_weightedTotal (c : ToolCounts) :
    weightedSum c ≤ weightedTotal c := by
  have n1 := catContrib_le_catWeight 0.15 c.explore (by norm_num)
  have n2 := catContrib_le_catWeight 0.35 c.implement (by norm_num)
  have n3 := catContrib_le_catWeight 0.20 c.build (by norm_num)
  have n4 := catContrib_le_catWeight 0.20 c.test (by norm_num)
  have n5 := catContrib_le_catWeight 0.10 c.commit (by norm_num)
  unfold weightedSum weightedTotal
  linarith

theorem weightedTotal_le_ten_weightedSum (c : ToolCounts) :
    weightedTotal c ≤ 10 * weightedSum c := by
  have n1 := catWeight_le_ten_catContrib 0.15 c.explore (by norm_num)
  have n2 := catWeight_le_ten_catContrib 0.35 c.implement (by norm_num)
  have n3 := catWeight_le_ten_catContrib 0.20 c.build (by norm_num)
  have n4 := catWeight_le_ten_catContrib 0.20 c.test (by norm_num)
  have n5 := catWeight_le_ten_catContrib 0.10 c.commit (by norm_num)
  unfold weightedSum weightedTotal
  linarith

theorem weightedTotal_le_one (c : ToolCounts) : weightedTotal c ≤ 1 := by
  have l1 := catWeight_le 0.15 c.explore (by norm_num)
  have l2 := catWeight_le 0.35 c.implement (by norm_num)
  have l3 := catWeight_le 0.20 c.build (by norm_num)
  have l4 := catWeight_le 0.20 c.test (by norm_num)
  have l5 := catWeight_le 0.10 c.commit (by norm_num)
  unfold weightedTotal
  linarith

theorem weightedTotal_ge_tenth (c : ToolCounts) (h : c.total ≠ 0) :
    1/10 ≤ weightedTotal c := by
  unfold ToolCounts.total at h
  have n1 := catWeight_nonneg 0.15 c.explore (by norm_num)
  have n2 := catWeight_nonneg 0.35 c.implement (by norm_num)
  have n3 := catWeight_nonneg 0.20 c.build (by norm_num)
  have n4 := catWeight_nonneg 0.20 c.test (by norm_num)
  have n5 := catWeight_nonneg 0.10 c.commit (by norm_num)
  have hd : 0 < c.explore ∨ 0 < c.implement ∨ 0 < c.build ∨ 0 < c.test ∨ 0 < c.commit := by
    omega
  unfold weightedTotal
  rcases hd with h' | h' | h' | h' | h'
  · have he : catWeight 0.15 c.explore = 0.15 := by unfold catWeight; rw [if_pos h']
    linarith
  · have he : catWeight 0.35 c.implement = 0.35 := by unfold catWeight; rw [if_pos h']
    linarith
  · have he : catWeight 0.20 c.build = 0.20 := by unfold catWeight; rw [if_pos h']
    linarith
  · have he : catWeight 0.20 c.test = 0.20 := by unfold catWeight; rw [if_pos h']
    linarith
  · have he : catWeight 0.10 c.commit = 0.10 := by unfold catWeight; rw [if_pos h']
    linarith

theorem weightedTotal_eq_awInt (c : ToolCounts) :
    weightedTotal c = (awInt c : ℚ) / 20 := by
  unfold weightedTotal awInt catWeight
  split_ifs <;> push_cast <;> norm_num

theorem weightedSum_eq_aeInt (c : ToolCounts) :
    weightedSum c = (aeInt c : ℚ) / 200 := by
  have hE : ∀ (w3 : ℕ) (n : ℕ), catContrib ((w3:ℚ)/20) n
      = ((if 0 < n then w3 * min n 10 else 0 : ℕ):ℚ) / 200 := by
    intro w3 n
    unfold catContrib
    split_ifs with h
    · push_cast
      ring
    · norm_num
  unfold weightedSum aeInt
  rw [show (0.15:ℚ) = ((3:ℕ):ℚ)/20 by norm_num, show (0.35:ℚ) = ((7:ℕ):ℚ)/20 by norm_num,
    show (0.20:ℚ) = ((4:ℕ):ℚ)/20 by norm_num, show (0.10:ℚ) = ((2:ℕ):ℚ)/20 by norm_num]
  rw [hE 3 c.explore, hE 7 c.implement, hE 4 c.build, hE 4 c.test, hE 2 c.commit]
  push_cast
  ring

theorem awInt_pos (c : ToolCounts) (h : c.total ≠ 0) : 0 < awInt c := by
  unfold ToolCounts.total at h
  unfold awInt
  split_ifs <;> omega

theorem awInt_le_twenty (c : ToolCounts) : awInt c ≤ 20 := by
  unfold awInt
  split_ifs <;> omega

/-- Natural division is the floor of the rational quotient. -/
theorem natDiv_floor (a b : ℕ) (hb : 0 < b) : ((a / b : ℕ) : ℤ) = ⌊(a:ℚ)/(b:ℚ)⌋ := by
  have hbQ : (0:ℚ) < (b:ℚ) := by exact_mod_cast hb
  symm
  rw [Int.floor_eq_iff]
  constructor
  · rw [le_div_iff₀ hbQ]
    exact_mod_cast Nat.div_mul_le_self a b
  · rw [div_lt_iff₀ hbQ]
    have hnat : a < (a / b + 1) * b := by
      have hdm := (Nat.div_add_mod a b).symm
      have hml := Nat.mod_lt a hb
      calc a = b * (a / b) + a % b := hdm
      _ < b * (a / b) + b := by omega
      _ = (a / b + 1) * b := by ring
    exact_mod_cast hnat

/-- A value within `1/M` of a rational `v` with denominator dividing `M` has
floor `⌊v⌋` or `⌊v⌋ - 1` (the latter only possible by undershooting an integer
`v`). -/
theorem floor_near_dichotomy (x v : ℚ) (M : ℕ) (hM : 0 < M) (K : ℤ)
    (hK : v * (M:ℚ) = (K:ℚ)) (herr : |x - v| < 1/(M:ℚ)) :
    ⌊x⌋ = ⌊v⌋ ∨ ⌊x⌋ = ⌊v⌋ - 1 := by
  have hMQ : (0:ℚ) < (M:ℚ) := by exact_mod_cast hM
  have hM1 : (1:ℚ) ≤ (M:ℚ) := by exact_mod_cast hM
  have h1M : 1/(M:ℚ) ≤ 1 := by
    rw [div_le_one hMQ]
    exact hM1
  have h1Mpos : 0 < 1/(M:ℚ) := by positivity
  rw [abs_lt] at herr
  obtain ⟨hel, heu⟩ := herr
  have hfl := Int.floor_le v
  have hfu := Int.lt_floor_add_one v
  by_cases hint : ((⌊v⌋:ℤ):ℚ) = v
  · by_cases hxv : ((⌊v⌋:ℤ):ℚ) ≤ x
    · left
      rw [Int.floor_eq_iff]
      refine ⟨hxv, ?_⟩
      push_cast
      linarith
    · right
      push_neg at hxv
      rw [Int.floor_eq_iff]
      constructor
      · push_cast
        linarith
      · push_cast
        linarith
  · left
    have hvlt : ((⌊v⌋:ℤ):ℚ) < v := lt_of_le_of_ne hfl hint
    have hKl : (M:ℤ) * ⌊v⌋ + 1 ≤ K := by
      have hq : ((M:ℤ) * ⌊v⌋ : ℤ) < K := by
        have hq2 : (((M:ℤ) * ⌊v⌋ : ℤ):ℚ) < (K:ℚ) := by
          push_cast
          rw [← hK]
          nlinarith [mul_pos (sub_pos.mpr hvlt) hMQ]
        exact_mod_cast hq2
      omega
    have hKu : K + 1 ≤ (M:ℤ) * (⌊v⌋ + 1) := by
      have hq : K < (M:ℤ) * (⌊v⌋ + 1) := by
        have hq2 : (K:ℚ) < (((M:ℤ) * (⌊v⌋ + 1) : ℤ):ℚ) := by
          push_cast
          rw [← hK]
          nlinarith [mul_pos (sub_pos.mpr hfu) hMQ]
        exact_mod_cast hq2
      omega
    have hg1 : ((⌊v⌋:ℤ):ℚ) + 1/(M:ℚ) ≤ v := by
      have hq : (((M:ℤ) * ⌊v⌋ + 1 : ℤ):ℚ) ≤ (K:ℚ) := by exact_mod_cast hKl
      rw [← hK] at hq
      push_cast at hq
      have heq : ((⌊v⌋:ℤ):ℚ) + 1/(M:ℚ) = ((M:ℚ) * ((⌊v⌋:ℤ):ℚ) + 1)/(M:ℚ) := by
        field_simp
        ring
      rw [heq, div_le_iff₀ hMQ]
      linarith
    have hg2 : v ≤ ((⌊v⌋:ℤ):ℚ) + 1 - 1/(M:ℚ) := by
      have hq : ((K + 1 : ℤ):ℚ) ≤ (((M:ℤ) * (⌊v⌋ + 1) : ℤ):ℚ) := by exact_mod_cast hKu
      push_cast at hq
      rw [← hK] at hq
      have heq : ((⌊v⌋:ℤ):ℚ) + 1 - 1/(M:ℚ) = ((M:ℚ) * (((⌊v⌋:ℤ):ℚ) + 1) - 1)/(M:ℚ) := by
        field_simp
        ring
      rw [heq, le_div_iff₀ hMQ]
      linarith
    rw [Int.floor_eq_iff]
    constructor
    · linarith
    · push_cast
      linarith

theorem stepWS_cap (acc : Dy) (w : Dy) (n : ℕ) :
    stepWS acc w (min n 10) = stepWS acc w n := by
  by_cases hn : 0 < n
  · have h1 : 0 < min n 10 := by omega
    unfold stepWS
    rw [if_pos h1, if_pos hn]
    unfold termF
    rw [show min (min n 10) 10 = min n 10 by omega]
  · have h0 : n = 0 := by omega
    subst h0
    rfl

theorem stepWT_cap (acc : Dy) (w : Dy) (n : ℕ) :
    stepWT acc w (min n 10) = stepWT acc w n := by
  by_cases hn : 0 < n
  · have h1 : 0 < min n 10 := by omega
    unfold stepWT
    rw [if_pos h1, if_pos hn]
  · have h0 : n = 0 := by omega
    subst h0
    rfl

theorem total_cap (c : ToolCounts) : (capCounts c).total = 0 ↔ c.total = 0 := by
  show min c.explore 10 + min c.implement 10 + min c.build 10 + min c.test 10 +
    min c.commit 10 = 0 ↔ c.explore + c.implement + c.build + c.test + c.commit = 0
  omega

theorem wsF_cap (c : ToolCounts) : wsF (capCounts c) = wsF c := by
  show stepWS (stepWS (stepWS (stepWS (stepWS (0, 1) wExpF (min c.explore 10))
      wImpF (min c.implement 10)) wBldF (min c.build 10)) wTstF (min c.test 10))
      wCmtF (min c.commit 10)
    = stepWS (stepWS (stepWS (stepWS (stepWS (0, 1) wExpF c.explore)
      wImpF c.implement) wBldF c.build) wTstF c.test) wCmtF c.commit
  simp only [stepWS_cap]

theorem wtF_cap (c : ToolCounts) : wtF (capCounts c) = wtF c := by
  show stepWT (stepWT (stepWT (stepWT (stepWT (0, 1) wExpF (min c.explore 10))
      wImpF (min c.implement 10)) wBldF (min c.build 10)) wTstF (min c.test 10))
      wCmtF (min c.commit 10)
    = stepWT (stepWT (stepWT (stepWT (stepWT (0, 1) wExpF c.explore)
      wImpF c.implement) wBldF c.build) wTstF c.test) wCmtF c.commit
  simp only [stepWT_cap]

theorem calculate_progress_cap (c : ToolCounts) :
    calculate_progress (capCounts c) = calculate_progress c := by
  by_cases h : c.total = 0
  · have h' := (total_cap c).mpr h
    unfold calculate_progress
    rw [if_pos h', if_pos h]
  · have h' : ¬(capCounts c).total = 0 := fun hh => h ((total_cap c).mp hh)
    unfold calculate_progress
    rw [if_neg h', if_neg h]
    simp only [wsF_cap, wtF_cap]

theorem le_pow100 {a : ℚ} (h : a ≤ 90) : a ≤ 2^100 := by
  have h90 : (90:ℚ) ≤ 2^100 := by norm_num
  linarith

theorem one_le_mul_pow100 {a : ℚ} (h : 1/10 ≤ a) : 1 ≤ a * 2^100 := by
  have h2 := mul_le_mul_of_nonneg_right h (show (0:ℚ) ≤ 2^100 by norm_num)
  have h3 : (1:ℚ) ≤ 1/10 * 2^100 := by norm_num
  linarith

/-- Abstract floor dichotomy for the progress value: the exact value has
denominator dividing `2·aw ≤ 40`, so a float within `1/80` of it floors to
the exact floor or one below. -/
theorem floor_core (aw ae : ℕ) (hawpos : 0 < aw) (hawle : aw ≤ 20) (x : ℚ)
    (herr8 : |x - ((25:ℚ) + 65 * (((ae:ℚ)/200) / ((aw:ℚ)/20)))| ≤ 1/80) :
    ⌊x⌋ = ⌊(25:ℚ) + 65 * (((ae:ℚ)/200) / ((aw:ℚ)/20))⌋
    ∨ ⌊x⌋ = ⌊(25:ℚ) + 65 * (((ae:ℚ)/200) / ((aw:ℚ)/20))⌋ - 1 := by
  have hawQ : (0:ℚ) < (aw:ℚ) := by exact_mod_cast hawpos
  apply floor_near_dichotomy x _ (2*aw) (by omega) (50 * (aw:ℤ) + 13 * (ae:ℤ))
  · push_cast
    field_simp
    ring
  · have h2aw : ((2*aw:ℕ):ℚ) ≤ 40 := by exact_mod_cast (show 2*aw ≤ 40 by omega)
    have hpos : (0:ℚ) < ((2*aw:ℕ):ℚ) := by exact_mod_cast (show 0 < 2*aw by omega)
    have hge : (1:ℚ)/40 ≤ 1/((2*aw:ℕ):ℚ) := one_div_le_one_div_of_le hpos h2aw
    calc |x - ((25:ℚ) + 65 * (((ae:ℚ)/200) / ((aw:ℚ)/20)))| ≤ 1/80 := herr8
    _ < 1/40 := by norm_num
    _ ≤ 1/((2*aw:ℕ):ℚ) := hge

set_option maxHeartbeats 2000000 in
/-- The nonzero-counter branch of `calculate_progress`: the double-precision
result is the exact floor or one below it, and it stays within `[25, 90]`. -/
theorem calculate_progress_main (c : ToolCounts) (h : c.total ≠ 0) :
    ((calculate_progress c : ℤ) = progressFormula c
      ∨ (calculate_progress c : ℤ) = progressFormula c - 1)
    ∧ 25 ≤ calculate_progress c ∧ calculate_progress c ≤ 90 := by
  have hws := dyApprox_wsF c
  have hwt := dyApprox_wtF c
  have hS0 := weightedSum_nonneg c
  have hSW := weightedSum_le_weightedTotal c
  have hWS10 := weightedTotal_le_ten_weightedSum c
  have hW1 := weightedTotal_le_one c
  have hW10 := weightedTotal_ge_tenth c h
  have hWpos : 0 < weightedTotal c := by linarith
  have heps := eps_eq
  -- bounds on the exact ratio
  have hr1 : 1/10 ≤ weightedSum c / weightedTotal c := by
    rw [le_div_iff₀ hWpos]
    linarith
  have hr2 : weightedSum c / weightedTotal c ≤ 1 := by
    rw [div_le_one hWpos]
    exact hSW
  have hrpos : 0 < weightedSum c / weightedTotal c := by linarith
  -- the rounded division
  have hdiv : DyApprox (fdiv (wsF c) (wtF c)) (weightedSum c / weightedTotal c) 51 :=
    dyApprox_fdiv hws hwt hS0 hWpos (by norm_num) (by norm_num)
  have hro : DyApprox (ddivF (wsF c) (wtF c)) (weightedSum c / weightedTotal c) 52 :=
    dyApprox_round hdiv hrpos (by norm_num)
      (le_pow100 (by linarith)) (one_le_mul_pow100 (by linarith))
  -- times 65
  have h65 : DyApprox ((65:ℕ), 1) (65:ℚ) 0 := by
    have := dyApprox_exact 65
    norm_num at this
    exact this
  have hm : DyApprox (fmul (ddivF (wsF c) (wtF c)) (65, 1))
      (weightedSum c / weightedTotal c * 65) 53 :=
    dyApprox_fmul hro h65 (by linarith) (by norm_num) (by norm_num) (by norm_num)
  have hmr : DyApprox (dmulF (ddivF (wsF c) (wtF c)) (65, 1))
      (weightedSum c / weightedTotal c * 65) 54 :=
    dyApprox_round hm (by nlinarith) (by norm_num)
      (le_pow100 (by nlinarith)) (one_le_mul_pow100 (by nlinarith))
  -- plus 25
  have h25 : DyApprox ((25:ℕ), 1) (25:ℚ) 0 := by
    have := dyApprox_exact 25
    norm_num at this
    exact this
  have hfa0 : DyApprox (fadd (25, 1) (dmulF (ddivF (wsF c) (wtF c)) (65, 1)))
      (25 + weightedSum c / weightedTotal c * 65) (max 0 54) :=
    dyApprox_fadd h25 hmr (by norm_num) (by nlinarith)
  have hmax : max 0 54 = 54 := by norm_num
  rw [hmax] at hfa0
  have hv315 : 63/2 ≤ 25 + weightedSum c / weightedTotal c * 65 := by nlinarith
  have hv90 : 25 + weightedSum c / weightedTotal c * 65 ≤ 90 := by nlinarith
  have hfr : DyApprox (daddF (25, 1) (dmulF (ddivF (wsF c) (wtF c)) (65, 1)))
      (25 + weightedSum c / weightedTotal c * 65) 55 :=
    dyApprox_round hfa0 (by nlinarith) (by norm_num)
      (le_pow100 hv90) (one_le_mul_pow100 (by nlinarith))
  -- the weighted-total float is nonzero, so the else branch is taken
  obtain ⟨hwtd, hwtl, hwtr⟩ := hwt
  have h15e : (0:ℚ) ≤ 1 - ((15:ℕ):ℚ) * eps := by
    push_cast
    rw [heps]
    norm_num
  have hwtvpos : 0 < dyVal (wtF c) := by
    have h1 : weightedTotal c * (1 - ((15:ℕ):ℚ) * eps) ≤ dyVal (wtF c) := hwtl
    have h2 : (0:ℚ) < 1 - ((15:ℕ):ℚ) * eps := by
      push_cast
      rw [heps]
      norm_num
    nlinarith
  have hwt1 : ¬((wtF c).1 = 0) := by
    have := dyVal_pos_num hwtvpos
    omega
  -- unfold the computation
  have hcp : calculate_progress c
      = (daddF (25, 1) (dmulF (ddivF (wsF c) (wtF c)) (65, 1))).1
        / (daddF (25, 1) (dmulF (ddivF (wsF c) (wtF c)) (65, 1))).2 := by
    show (if c.total = 0 then 25
      else if (wtF c).1 = 0 then 25
      else (daddF (25, 1) (dmulF (ddivF (wsF c) (wtF c)) (65, 1))).1
        / (daddF (25, 1) (dmulF (ddivF (wsF c) (wtF c)) (65, 1))).2) = _
    rw [if_neg h, if_neg hwt1]
  obtain ⟨hfd, hfl2, hfr2⟩ := hfr
  have hfloor : ((calculate_progress c : ℕ) : ℤ)
      = ⌊dyVal (daddF (25, 1) (dmulF (ddivF (wsF c) (wtF c)) (65, 1)))⌋ := by
    rw [hcp]
    exact natDiv_floor _ _ hfd
  -- numeric error bounds
  push_cast at hfl2 hfr2
  have h55e : (0:ℚ) ≤ 55 * eps := by
    rw [heps]
    norm_num
  have hveps : (25 + weightedSum c / weightedTotal c * 65) * (55 * eps)
      ≤ 90 * (55 * eps) := mul_le_mul_of_nonneg_right hv90 h55e
  have hnum80 : (90:ℚ) * (55 * eps) ≤ 1/80 := by
    rw [heps]
    norm_num
  have herr8 : |dyVal (daddF (25, 1) (dmulF (ddivF (wsF c) (wtF c)) (65, 1)))
      - (25 + weightedSum c / weightedTotal c * 65)| ≤ 1/80 := by
    rw [abs_le]
    constructor <;> nlinarith [hfl2, hfr2, hveps, hnum80, hv315, hv90]
  -- floor dichotomy against the exact formula
  have haw := weightedTotal_eq_awInt c
  have hae := weightedSum_eq_aeInt c
  have hform : progressFormula c
      = ⌊(25:ℚ) + 65 * (((aeInt c:ℚ)/200) / ((awInt c:ℚ)/20))⌋ := by
    unfold progressFormula
    rw [hae, haw]
  have herr8' : |dyVal (daddF (25, 1) (dmulF (ddivF (wsF c) (wtF c)) (65, 1)))
      - ((25:ℚ) + 65 * (((aeInt c:ℚ)/200) / ((awInt c:ℚ)/20)))| ≤ 1/80 := by
    have hid : (25:ℚ) + 65 * (((aeInt c:ℚ)/200) / ((awInt c:ℚ)/20))
        = 25 + weightedSum c / weightedTotal c * 65 := by
      rw [← hae, ← haw]
      ring
    rw [hid]
    exact herr8
  have hdich := floor_core (awInt c) (aeInt c) (awInt_pos c h) (awInt_le_twenty c)
    _ herr8'
  -- bounds of the result
  have hxlow : (31:ℚ) ≤ dyVal (daddF (25, 1) (dmulF (ddivF (wsF c) (wtF c)) (65, 1))) := by
    nlinarith [hfl2, hveps, hnum80, hv315]
  have hxhigh : dyVal (daddF (25, 1) (dmulF (ddivF (wsF c) (wtF c)) (65, 1))) < 91 := by
    nlinarith [hfr2, hveps, hnum80, hv90]
  have hfl31 : (31:ℤ) ≤ ⌊dyVal (daddF (25, 1) (dmulF (ddivF (wsF c) (wtF c)) (65, 1)))⌋ :=
    Int.le_floor.mpr (by exact_mod_cast hxlow)
  have hfl90 : ⌊dyVal (daddF (25, 1) (dmulF (ddivF (wsF c) (wtF c)) (65, 1)))⌋ < 91 :=
    Int.floor_lt.mpr (by exact_mod_cast hxhigh)
  refine ⟨?_, ?_, ?_⟩
  · rw [hfloor, hform]
    exact hdich
  · have h25le : (25:ℤ) ≤ ((calculate_progress c : ℕ) : ℤ) := by
      rw [hfloor]
      omega
    exact_mod_cast h25le
  · have h90ge : ((calculate_progress c : ℕ) : ℤ) ≤ 90 := by
      rw [hfloor]
      omega
    exact_mod_cast h90ge

/-- C1 counterexample: on the counter state {build:1, test:7} the source's
double-precision evaluation truncates to 50, while the exact rational floor
of the spec's formula is 51 — the claim's "integer floor" description fails
on the code. -/
theorem calculate_progress_counterexample :
    calculate_progress ⟨0, 0, 1, 7, 0⟩ = 50
  ∧ progressFormula ⟨0, 0, 1, 7, 0⟩ = 51
  ∧ (calculate_progress ⟨0, 0, 1, 7, 0⟩ : ℤ) ≠ progressFormula ⟨0, 0, 1, 7, 0⟩ := by
  have h1 : calculate_progress ⟨0, 0, 1, 7, 0⟩ = 50 := by decide
  have hS : weightedSum ⟨0, 0, 1, 7, 0⟩ = 16/100 := by
    unfold weightedSum catContrib
    norm_num
  have hW : weightedTotal ⟨0, 0, 1, 7, 0⟩ = 40/100 := by
    unfold weightedTotal catWeight
    norm_num
  have h2 : progressFormula ⟨0, 0, 1, 7, 0⟩ = 51 := by
    unfold progressFormula
    rw [hS, hW]
    rw [show (25:ℚ) + 65 * ((16/100)/(40/100)) = ((51:ℤ):ℚ) by norm_num]
    exact Int.floor_intCast 51
  refine ⟨h1, h2, ?_⟩
  rw [h1, h2]
  decide

/-- C1 (amended): `calculate_progress` evaluates the spec's formula
`25 + 65 × (Σ weight·min(count,10)/10 / Σ weights-of-nonzero)` in IEEE-754
double precision and truncates, which yields the exact rational floor or
exactly one less (when rounding lands just below an integer value); it
returns 25 on the all-zero state, always lies in [25, 90], and depends on
each counter only through `min(count, 10)`, so {explore:20} and {explore:10}
agree. -/
theorem calculate_progress_spec (c : ToolCounts) :
    ((calculate_progress c : ℤ) = progressFormula c
      ∨ (calculate_progress c : ℤ) = progressFormula c - 1)
  ∧ calculate_progress ⟨0, 0, 0, 0, 0⟩ = 25
  ∧ 25 ≤ calculate_progress c ∧ calculate_progress c ≤ 90
  ∧ calculate_progress (capCounts c) = calculate_progress c
  ∧ calculate_progress ⟨20, 0, 0, 0, 0⟩ = calculate_progress ⟨10, 0, 0, 0, 0⟩ := by
  have hmain : ((calculate_progress c : ℤ) = progressFormula c
      ∨ (calculate_progress c : ℤ) = progressFormula c - 1)
      ∧ 25 ≤ calculate_progress c ∧ calculate_progress c ≤ 90 := by
    by_cases h : c.total = 0
    · have hcp : calculate_progress c = 25 := by
        unfold calculate_progress
        rw [if_pos h]
      have h1 : c.explore = 0 := by unfold ToolCounts.total at h; omega
      have h2 : c.implement = 0 := by unfold ToolCounts.total at h; omega
      have h3 : c.build = 0 := by unfold ToolCounts.total at h; omega
      have h4 : c.test = 0 := by unfold ToolCounts.total at h; omega
      have h5 : c.commit = 0 := by unfold ToolCounts.total at h; omega
      have hS : weightedSum c = 0 := by
        unfold weightedSum catContrib
        rw [h1, h2, h3, h4, h5]
        norm_num
      have hW : weightedTotal c = 0 := by
        unfold weightedTotal catWeight
        rw [h1, h2, h3, h4, h5]
        norm_num
      have hform : progressFormula c = 25 := by
        unfold progressFormula
        rw [hS, hW]
        rw [show (25:ℚ) + 65 * ((0:ℚ)/0) = ((25:ℤ):ℚ) by norm_num]
        exact Int.floor_intCast 25
      rw [hcp, hform]
      refine ⟨Or.inl (by norm_num), by norm_num, by norm_num⟩
    · exact calculate_progress_main c h
  exact ⟨hmain.1, by decide, hmain.2.1, hmain.2.2, calculate_progress_cap c, by decide⟩

end Kapsis
